import Mathlib

/-!
Verification development for the redline engine of the `nego` repository:
the DOCX extractor (`app/services/corpus_parser.py`, class `CorpusParserService`)
and the DOCX mutator (`app/services/redline_editor.py`, class
`DocxRedlineEditorService`).

The shallow embedding models:
  * XML element trees (`xml.etree.ElementTree`) as the inductive `Elem`.
    Every element carries `eid : Nat`, the model of CPython object identity
    (`id(element)`), since the editor's parent maps and node resolution work
    by object identity.  Real parsed trees always have pairwise distinct
    object ids, which appears as `Nodup` hypotheses where needed.
  * Python strings as `String`, with character-list implementations of
    `strip`/`lower`/`split`/comparison (`pyStrip`, `strLower`, ...),
    faithful on the ASCII data this code handles.
  * `difflib.SequenceMatcher.ratio()` as an exact rational computation
    (no floating point rounding; thresholds such as 0.75 are exactly
    representable, so the comparisons agree except for pathological
    rounding at the threshold).  The `autojunk` heuristic (which only
    affects second arguments of 200 characters or more) is not modelled.
  * A DOCX package as its list of zip entries.  Each entry carries its
    content bytes (as a `String`) and the outcome of `ET.fromstring` on
    those bytes (`parsed : Option Elem`); XML (de)serialisation of byte
    strings itself is abstracted, with `serializeDoc` standing for the
    deterministic re-serialisation `ET.tostring(..., xml_declaration=True)`.
    Re-serialising a parsed part does not, in general, reproduce the
    original bytes, which `serializeDoc` reflects by being a fixed
    canonical printer.
  * `datetime.now(timezone.utc)` as an explicit `now : String` input of the
    mutator, so time-dependence is visible in the model.
-/

/-! ### Python string helpers -/

/-- Python `str.strip()` (on the ASCII whitespace this data carries). -/
def pyStrip (s : String) : String :=
  ⟨((s.data.dropWhile Char.isWhitespace).reverse.dropWhile Char.isWhitespace).reverse⟩

/-- Python `str.lower()` (ASCII). -/
def strLower (s : String) : String :=
  ⟨s.data.map Char.toLower⟩

/-- Python `s.startswith(pre)`. -/
def pyStartsWith (s pre : String) : Bool :=
  pre.data.isPrefixOf s.data

/-- Python `s.endswith(suf)`. -/
def pyEndsWith (s suf : String) : Bool :=
  suf.data.isSuffixOf s.data

/-- Drop the first `n` characters. -/
def pyDropChars (s : String) (n : Nat) : String :=
  ⟨s.data.drop n⟩

/-- `str.split(sep)` for a one-character separator (all separators used by
the sources are one character). -/
def splitCharList (sep : Char) : List Char → List (List Char)
  | [] => [[]]
  | c :: rest =>
    let r := splitCharList sep rest
    if c = sep then [] :: r
    else
      match r with
      | h :: t => (c :: h) :: t
      | [] => [[c]]

/-- `value.split(sep)` on strings. -/
def splitOnCh (s : String) (sep : Char) : List String :=
  (splitCharList sep s.data).map String.mk

/-- The maximal runs of non-whitespace characters. -/
def wordsAux : List Char → List Char → List (List Char)
  | [], acc => if acc.isEmpty then [] else [acc.reverse]
  | c :: rest, acc =>
    if c.isWhitespace then
      if acc.isEmpty then wordsAux rest [] else acc.reverse :: wordsAux rest []
    else wordsAux rest (c :: acc)

/-- Python `str.split()` with no separator: the whitespace-separated words. -/
def pySplitWs (s : String) : List String :=
  (wordsAux s.data []).map String.mk

/-- Python `" ".join((text or "").split()).strip()`: collapse internal
whitespace to single spaces and strip the ends. -/
def squashWs (s : String) : String :=
  pyStrip (" ".intercalate (pySplitWs s))

/-- `DocxRedlineEditorService._normalize_text`:
`" ".join((text or "").split()).strip().lower()`. -/
def normalizeText (s : String) : String :=
  strLower (squashWs s)

/-- Lexicographic (code-point) string comparison, Python `a <= b`. -/
def charListLe : List Char → List Char → Bool
  | [], _ => true
  | _ :: _, [] => false
  | a :: as, b :: bs => if a = b then charListLe as bs else decide (a < b)

/-- Python `a <= b` on strings. -/
def strLe (a b : String) : Bool :=
  charListLe a.data b.data

/-- Substring test on character lists (`needle` occurs in `hay`). -/
def subListAt : List Char → Nat → List Char → Option Nat
  | hay, i, needle =>
    if needle.isPrefixOf hay then some i
    else match hay with
      | [] => none
      | _ :: rest => subListAt rest (i + 1) needle

/-- Python `hay.find(needle, start)` (callers only use nonempty needles and
in-range starts). Returns `none` for "not found" (`-1` in Python). -/
def pyFind (hay needle : String) (start : Nat) : Option Nat :=
  if start > hay.length then none
  else (subListAt (hay.toList.drop start) 0 needle.toList).map (· + start)

/-- Python `needle in hay` substring containment. -/
def pyContains (hay needle : String) : Bool :=
  (subListAt hay.toList 0 needle.toList).isSome

/-- Python `int(str(raw))` on comment ids: optional surrounding whitespace,
optional sign, then decimal digits. (Python also accepts digit-group
underscores; comment ids never contain them.) -/
def pyParseInt (s : String) : Option Int :=
  let t := pyStrip s
  let core := if pyStartsWith t "-" ∨ pyStartsWith t "+" then pyDropChars t 1 else t
  if core.length > 0 ∧ core.toList.all Char.isDigit then
    let mag : Nat := core.toList.foldl (fun acc c => acc * 10 + (c.toNat - 48)) 0
    some (if pyStartsWith t "-" then -(mag : Int) else (mag : Int))
  else none

/-! ### XML element trees -/

/-- A parsed XML element: object identity `eid`, fully qualified tag,
attributes in insertion order, the element text (`.text`), and child
elements.  (`.tail` is never read by the modelled code and is omitted.) -/
inductive Elem where
  | mk (eid : Nat) (tag : String) (attrs : List (String × String))
       (text : Option String) (children : List Elem)

def Elem.eid : Elem → Nat
  | .mk i _ _ _ _ => i

def Elem.tag : Elem → String
  | .mk _ t _ _ _ => t

def Elem.attrs : Elem → List (String × String)
  | .mk _ _ a _ _ => a

def Elem.text : Elem → Option String
  | .mk _ _ _ x _ => x

def Elem.children : Elem → List Elem
  | .mk _ _ _ _ cs => cs

/-- The `w:` namespace URI used by both services. -/
def docxWNs : String := "http://schemas.openxmlformats.org/wordprocessingml/2006/main"

/-- A namespaced tag `{ns}local` as `ElementTree` renders it. -/
def wTag (local_ : String) : String := "\x7b" ++ docxWNs ++ "\x7d" ++ local_

/-- The `xml:space` attribute key used by `_make_run`. -/
def xmlSpaceKey : String := "\x7bhttp://www.w3.org/XML/1998/namespace\x7dspace"

mutual
/-- `element.iter()`: the element followed by all descendants, preorder
(document order). -/
def descOrSelf : Elem → List Elem
  | .mk i t a x cs => .mk i t a x cs :: descOrSelfList cs

def descOrSelfList : List Elem → List Elem
  | [] => []
  | c :: cs => descOrSelf c ++ descOrSelfList cs
end

/-- `element.findall(".//<pred>")`: all proper descendants satisfying the
predicate, in document order. -/
def findAllDesc (p : Elem → Bool) (e : Elem) : List Elem :=
  (descOrSelfList e.children).filter p

/-- Exact attribute lookup, `element.attrib.get(key)`. -/
def attrGet (e : Elem) (key : String) : Option String :=
  (e.attrs.find? (fun kv => kv.1 = key)).map (·.2)

/-! ### Generic tree folds and surgery by object identity -/

mutual
/-- Generic preorder fold: `g` gives each element's own contribution
(from its identity, tag, attributes and text); children contributions
follow in document order. -/
def homE (g : Nat → String → List (String × String) → Option String → List α) :
    Elem → List α
  | .mk i t a x cs => g i t a x ++ homL g cs

def homL (g : Nat → String → List (String × String) → Option String → List α) :
    List Elem → List α
  | [] => []
  | c :: cs => homE g c ++ homL g cs
end

/-- All object ids in the tree, preorder. -/
def eidsOf (e : Elem) : List Nat :=
  homE (fun i _ _ _ => [i]) e

/-- Per-element contribution for `wtPieces`. -/
def wtG : Nat → String → List (String × String) → Option String → List String :=
  fun _ t _ x => if t = wTag "t" then [x.getD ""] else []

/-- The texts of all `w:t` descendants-or-self, in document order
(unstripped pieces; `None` texts read as `""`). -/
def wtPieces (e : Elem) : List String :=
  homE wtG e

/-- Per-element contribution for `countTag`. -/
def tagG (tg : String) : Nat → String → List (String × String) → Option String → List Unit :=
  fun _ t _ _ => if t = tg then [()] else []

/-- Number of elements with the given tag in the tree (self included). -/
def countTag (tg : String) (e : Elem) : Nat :=
  (homE (tagG tg) e).length

mutual
/-- Model of `_replace_node` driven by object identity: every child whose
id is `target` is replaced in place by the list `repl` (under distinct
ids, exactly the one node).  The root itself is never replaced, matching
the `node not in parent_map` guard. -/
def replE (target : Nat) (repl : List Elem) : Elem → Elem
  | .mk i t a x cs => .mk i t a x (replL target repl cs)

def replL (target : Nat) (repl : List Elem) : List Elem → List Elem
  | [] => []
  | c :: cs =>
    (if c.eid = target then repl else [replE target repl c]) ++ replL target repl cs
end

mutual
/-- `element.append(..)` repeatedly: appends `extra` at the end of the
child list of the element whose id is `target`. -/
def appendE (target : Nat) (extra : List Elem) : Elem → Elem
  | .mk i t a x cs =>
    .mk i t a x (appendL target extra cs ++ if i = target then extra else [])

def appendL (target : Nat) (extra : List Elem) : List Elem → List Elem
  | [] => []
  | c :: cs => appendE target extra c :: appendL target extra cs
end

mutual
/-- First element (preorder, self included) with the given id. -/
def getE (target : Nat) : Elem → Option Elem
  | .mk i t a x cs =>
    if i = target then some (.mk i t a x cs) else getL target cs

def getL (target : Nat) : List Elem → Option Elem
  | [] => none
  | c :: cs =>
    match getE target c with
    | some r => some r
    | none => getL target cs
end

mutual
/-- Model of `parent_map` lookup: the element having a direct child with
id `target` (unique when ids are distinct). -/
def parentE (target : Nat) : Elem → Option Elem
  | .mk i t a x cs =>
    if cs.any (fun c => c.eid = target) then some (.mk i t a x cs)
    else parentL target cs

def parentL (target : Nat) : List Elem → Option Elem
  | [] => none
  | c :: cs =>
    match parentE target c with
    | some r => some r
    | none => parentL target cs
end

mutual
/-- Model of `copy.deepcopy`: a structurally identical tree of fresh
objects.  Fresh ids are drawn consecutively from `f`. -/
def relabelE (f : Nat) : Elem → Elem × Nat
  | .mk _ t a x cs =>
    let r := relabelL (f + 1) cs
    (.mk f t a x r.1, r.2)

def relabelL (f : Nat) : List Elem → List Elem × Nat
  | [] => ([], f)
  | c :: cs =>
    let r := relabelE f c
    let r' := relabelL r.2 cs
    (r.1 :: r'.1, r'.2)
end

/-- Navigate by child indices (a pure name for one occurrence of a node;
used in theorem statements to pin down the node an identity refers to). -/
def getPath : List Nat → Elem → Option Elem
  | [], e => some e
  | i :: p, e => (e.children[i]?).bind (getPath p)

/-- Largest id in the tree plus one: a safe start for fresh ids. -/
def freshAfter (e : Elem) : Nat :=
  (eidsOf e).foldl max 0 + 1

/-! ### `difflib.SequenceMatcher` ratio (junk-free) -/

/-- Length of the common prefix of two character lists. -/
def commonRun : List Char → List Char → Nat
  | a :: as, b :: bs => if a = b then commonRun as bs + 1 else 0
  | _, _ => 0

/-- `find_longest_match(alo, ahi, blo, bhi)` with no junk: among all maximal
matching blocks, the one starting earliest in `a`, then earliest in `b`.
Returned as `(i, j, size)`. -/
def findLongestMatch (a b : List Char) (alo ahi blo bhi : Nat) : Nat × Nat × Nat :=
  let cand := (List.range' alo (ahi - alo)).flatMap fun i =>
    (List.range' blo (bhi - blo)).map fun j =>
      (i, j, min (commonRun (a.drop i) (b.drop j)) (min (ahi - i) (bhi - j)))
  cand.foldl
    (fun best c => if c.2.2 > best.2.2 then c else best)
    (alo, blo, 0)

/-- Total size of the recursively found matching blocks
(`get_matching_blocks`); `fuel` dominates the recursion depth and is
always sufficient at the top-level call. -/
def matchTotal (a b : List Char) : Nat → Nat → Nat → Nat → Nat → Nat
  | 0, _, _, _, _ => 0
  | fuel + 1, alo, ahi, blo, bhi =>
    let m := findLongestMatch a b alo ahi blo bhi
    if m.2.2 = 0 then 0
    else
      matchTotal a b fuel alo m.1 blo m.2.1 + m.2.2 +
      matchTotal a b fuel (m.1 + m.2.2) ahi (m.2.1 + m.2.2) bhi

/-- A nonnegative score as an exact (unreduced) fraction; stands for the
Python float similarity value.  Exact comparison replaces float
comparison (thresholds such as 0.75 are exactly representable, and the
data sizes here keep ratios far from float rounding boundaries). -/
structure Frac where
  num : Nat
  den : Nat
deriving DecidableEq, Repr

/-- `x ≤ y` on score fractions (cross multiplication; denominators are
always positive in this development). -/
def Frac.le (x y : Frac) : Bool := x.num * y.den ≤ y.num * x.den

/-- `x < y` on score fractions. -/
def Frac.lt (x y : Frac) : Bool := x.num * y.den < y.num * x.den

/-- Python `max(x, y)`: `x` when `x >= y`, else `y`. -/
def Frac.pymax (x y : Frac) : Frac := if Frac.le y x then x else y

/-- `SequenceMatcher(None, a, b).ratio()`:
`2*M / (len(a)+len(b))`, `1.0` when both strings are empty. -/
def smRatio (a b : String) : Frac :=
  let la := a.toList
  let lb := b.toList
  let total := la.length + lb.length
  if total = 0 then ⟨1, 1⟩
  else
    let m := matchTotal la lb (total + 1) 0 la.length 0 lb.length
    ⟨2 * m, total⟩

/-- `_similarity` (identical in both services): `0.0` on an empty side,
the `SequenceMatcher` ratio otherwise. -/
def similarity (a b : String) : Frac :=
  if a = "" ∨ b = "" then ⟨0, 1⟩ else smRatio a b

example : (similarity "abc" "abc").num = 2 * 3 := by decide
example : Frac.le ⟨3, 4⟩ (similarity "abcd" "bcde") = true := by decide
example : Frac.le ⟨3, 4⟩ (similarity "abcd" "wxyz") = false := by decide

/-! ### Association-list helpers (models of Python `dict` in insertion order) -/

/-- `d.get(k)`. -/
def alGet [BEq κ] (l : List (κ × α)) (k : κ) : Option α :=
  (l.find? (fun kv => kv.1 == k)).map (·.2)

/-- `d[k] = v` (overwrite in place, append when absent). -/
def alSet [BEq κ] (l : List (κ × α)) (k : κ) (v : α) : List (κ × α) :=
  if l.any (fun kv => kv.1 == k) then
    l.map (fun kv => if kv.1 == k then (kv.1, v) else kv)
  else l ++ [(k, v)]

/-- The `if value not in unique: unique.append(value)` pattern. -/
def dedupKeepFirst (l : List String) : List String :=
  l.foldl (fun acc v => if acc.contains v then acc else acc ++ [v]) []

/-- `not d.get(k)` for a string-valued dict: missing or empty. -/
def optFalsy : Option String → Bool
  | none => true
  | some v => v == ""

namespace CorpusParser

/-- `CorpusParserService._local_name`: `str(value).split("}")[-1]`. -/
def localName (value : String) : String :=
  ((splitOnCh value '\x7d').getLast?).getD value

/-- `CorpusParserService._collect_text`: concatenation of the texts of all
`.//w:t` descendants (truthy texts only), stripped. -/
def collectText (e : Elem) : String :=
  pyStrip (String.join ((findAllDesc (fun n => n.tag == wTag "t") e).filterMap
    (fun n => match n.text with
      | some t => if t ≠ "" then some t else none
      | none => none)))

/-- `CorpusParserService._collect_deleted_text`: the `.//w:delText` texts if
any, else `_collect_text`. -/
def collectDeletedText (e : Elem) : String :=
  let parts := (findAllDesc (fun n => n.tag == wTag "delText") e).filterMap
    (fun n => match n.text with
      | some t => if t ≠ "" then some t else none
      | none => none)
  if parts ≠ [] then pyStrip (String.join parts) else collectText e

/-- First `id`-named attribute of a comment marker (`break` after the first
hit, value taken verbatim). -/
def markerIdOf (n : Elem) : Option String :=
  (n.attrs.find? (fun kv => strLower (localName kv.1) == "id")).map (·.2)

/-- `CorpusParserService._collect_comment_ids`: ids of all
`commentRangeStart`/`commentReference` markers under (or at) the element,
deduplicated keeping first occurrences. -/
def collectCommentIds (e : Elem) : List String :=
  dedupKeepFirst ((descOrSelf e).filterMap (fun n =>
    let lt := strLower (localName n.tag)
    if lt == "commentrangestart" ∨ lt == "commentreference" then markerIdOf n
    else none))

/-- `_id_from_attrib` of the tree walks: first `id`-named attribute whose
stripped value is nonempty. -/
def idFromAttrib (n : Elem) : Option String :=
  n.attrs.findSome? (fun kv =>
    if strLower (localName kv.1) == "id" then
      let clean := pyStrip kv.2
      if clean ≠ "" then some clean else none
    else none)

mutual
/-- The `_walk` of `_collect_active_comment_ids_by_element`: maintain the
stack of active comment-range ids; record the active list for every
`w:ins`/`w:del` met while it is nonempty. Marker nodes are not entered. -/
def walkActiveL : List Elem -> List (Nat × List String) × List String ->
    List (Nat × List String) × List String
  | [], st => st
  | c :: cs, (m, active) =>
    let lt := strLower (localName c.tag)
    if lt = "commentrangestart" then
      let actNew := match idFromAttrib c with
        | some mid => if active.contains mid then active else active ++ [mid]
        | none => active
      walkActiveL cs (m, actNew)
    else if lt = "commentrangeend" then
      let actNew := match idFromAttrib c with
        | some mid => active.erase mid
        | none => active
      walkActiveL cs (m, actNew)
    else
      let m2 := if (lt = "ins" ∨ lt = "del") ∧ active ≠ [] then m ++ [(c.eid, active)] else m
      walkActiveL cs (walkActiveE c (m2, active))

/-- One recursive `_walk(child)` step into an element. -/
def walkActiveE : Elem -> List (Nat × List String) × List String ->
    List (Nat × List String) × List String
  | .mk _ _ _ _ kids, st => walkActiveL kids st
end

/-- `CorpusParserService._collect_active_comment_ids_by_element`. -/
def collectActiveCommentIdsByElement (root : Elem) : List (Nat × List String) :=
  (walkActiveL root.children ([], [])).1

/-- `ranges.setdefault(cid, []).append(text)`. -/
def rangesAppend (l : List (String × List String)) (k v : String) :
    List (String × List String) :=
  if l.any (fun kv => kv.1 == k) then
    l.map (fun kv => if kv.1 == k then (kv.1, kv.2 ++ [v]) else kv)
  else l ++ [(k, [v])]

mutual
/-- The `_walk` of `_collect_comment_range_texts`: gather stripped texts of
`w:t`/`w:delText` nodes lying inside active comment ranges. -/
def walkRangesL : List Elem -> List (String × List String) × List String ->
    List (String × List String) × List String
  | [], st => st
  | c :: cs, (ranges, active) =>
    let lt := strLower (localName c.tag)
    if lt = "commentrangestart" then
      let actNew := match idFromAttrib c with
        | some mid => if active.contains mid then active else active ++ [mid]
        | none => active
      walkRangesL cs (ranges, actNew)
    else if lt = "commentrangeend" then
      let actNew := match idFromAttrib c with
        | some mid => active.erase mid
        | none => active
      walkRangesL cs (ranges, actNew)
    else
      let ranges2 :=
        if (lt = "t" ∨ lt = "deltext") ∧ active ≠ [] then
          let txt := pyStrip (c.text.getD "")
          if txt ≠ "" then active.foldl (fun r cid => rangesAppend r cid txt) ranges
          else ranges
        else ranges
      walkRangesL cs (walkRangesE c (ranges2, active))

/-- One recursive `_walk(child)` step into an element. -/
def walkRangesE : Elem -> List (String × List String) × List String ->
    List (String × List String) × List String
  | .mk _ _ _ _ kids, st => walkRangesL kids st
end

/-- `CorpusParserService._collect_comment_range_texts`. -/
def collectCommentRangeTexts (root : Elem) : List (String × String) :=
  (walkRangesL root.children ([], [])).1.filterMap
    (fun kv => if kv.2 ≠ [] then some (kv.1, pyStrip (" ".intercalate kv.2)) else none)

/-- `CorpusParserService._extract_attr_local`: first attribute whose local
name matches (case-insensitively) and whose stripped value is nonempty. -/
def extractAttrLocal (e : Elem) (key : String) : Option String :=
  let target := strLower key
  e.attrs.findSome? (fun kv =>
    if strLower (localName kv.1) == target then
      let clean := pyStrip kv.2
      if clean ≠ "" then some clean else none
    else none)

/-- `CorpusParserService._parse_people_xml`: map person ids to author
names from a `word/people.xml` tree. -/
def parsePeopleXml (root : Elem) : List (String × String) :=
  (descOrSelf root).foldl (fun mapping person =>
    if strLower (localName person.tag) ≠ "person" then mapping
    else
      let author0 :=
        (["author", "name", "displayName", "userName", "authorName"].findSome?
          (extractAttrLocal person)).getD ""
      let author :=
        if author0 ≠ "" then author0
        else
          (person.attrs.findSome? (fun kv =>
            let lk := strLower (localName kv.1)
            let clean := pyStrip kv.2
            if clean ≠ "" ∧ (pyContains lk "author" ∨ pyContains lk "name" ∨ pyContains lk "user")
            then some clean else none)).getD ""
      ["personId", "authorId", "userId", "id"].foldl (fun m idKey =>
        match extractAttrLocal person idKey with
        | some pid => if author ≠ "" then alSet m pid author else m
        | none => m) mapping) []

/-- `CorpusParserService._extract_comment_author`. -/
def extractCommentAuthor (c : Elem) (people : List (String × String)) : String :=
  match ["author", "authorName", "userName", "displayName"].findSome? (extractAttrLocal c) with
  | some v => v
  | none =>
  match extractAttrLocal c "initials" with
  | some v => v
  | none =>
  match ["personId", "authorId", "userId", "id"].findSome? (fun k =>
      (extractAttrLocal c k).bind (fun ref =>
        match alGet people ref with
        | some v => if v ≠ "" then some v else none
        | none => none)) with
  | some v => v
  | none =>
  match c.attrs.findSome? (fun kv =>
      let lk := strLower (localName kv.1)
      let clean := pyStrip kv.2
      if clean ≠ "" ∧ (pyContains lk "author" ∨ pyContains lk "user" ∨ pyContains lk "name")
      then some clean else none) with
  | some clean =>
    (match alGet people clean with
     | some v => if v ≠ "" then v else clean
     | none => clean)
  | none => ""

/-- One row of the nonempty-text paragraph pass (text plus the paragraph's
comment marker ids). -/
structure ParaRow where
  text : String
  comment_ids : List String
deriving DecidableEq, Repr

/-- The `paragraph_rows` pass of `_parse_docx`: nonempty-text paragraphs
only. -/
def paragraphRows (root : Elem) : List ParaRow :=
  (findAllDesc (fun n => n.tag == wTag "p") root).filterMap (fun p =>
    let text := pyStrip (collectText p)
    if text = "" then none
    else some ⟨text, collectCommentIds p⟩)

/-- First-seen anchor (preview text and flattened-text position) recorded
for a comment id. -/
structure Anchor where
  anchor_text : String
  position : Nat
deriving DecidableEq, Repr

/-- The `comment_anchor_by_id` pass: cursor walk over nonempty paragraphs,
first paragraph mentioning an id wins; paragraphs are separated by the
two-character `"\n\n"` delimiter. -/
def commentAnchors (rows : List ParaRow) : List (String × Anchor) :=
  (rows.foldl (fun (acc : List (String × Anchor) × Nat) row =>
    let start := acc.2
    let preview : String := ⟨row.text.toList.take 300⟩
    let m := row.comment_ids.foldl (fun m cid =>
      if m.any (fun kv => kv.1 == cid) then m
      else m ++ [(cid, ⟨preview, start⟩)]) acc.1
    (m, start + row.text.length + 2)) ([], 0)).1

/-- One entry of the extraction `comments` list (absent dict keys are
`none`). -/
structure CommentRow where
  id : Option String
  author : Option String
  timestamp : Option String
  text : String
  source : String
  anchor_text : Option String
  position : Option Nat
deriving DecidableEq, Repr

/-- Comment rows contributed by one parsed `word/comments*.xml` tree,
threading the first-nonempty-text-wins `comments_by_id` map. -/
def commentRowsOfPart (anchors : List (String × Anchor))
    (people : List (String × String)) (tree : Elem)
    (acc : List CommentRow × List (String × String)) :
    List CommentRow × List (String × String) :=
  (findAllDesc (fun n => n.tag == wTag "comment") tree).foldl (fun (rows, byId) c =>
    let cid := attrGet c (wTag "id")
    let ctext := collectText c
    let author := extractCommentAuthor c people
    let byId' := match cid with
      | some i =>
        if ctext ≠ "" ∧ optFalsy (alGet byId i) then alSet byId i ctext else byId
      | none => byId
    let row : CommentRow :=
      { id := cid
        author := if author ≠ "" then some author else none
        timestamp := attrGet c (wTag "date")
        text := ctext
        source := "comments"
        anchor_text := cid.bind (fun i => (alGet anchors i).map (·.anchor_text))
        position := cid.bind (fun i => (alGet anchors i).map (·.position)) }
    (rows ++ [row], byId')) acc

/-- The appended row when a comments part fails to parse (the loop stops
at the first failure because the whole loop sits in one `try`). -/
def unparsedPartRow : CommentRow :=
  { id := none, author := none, timestamp := none
    text := "comments part exists but could not be parsed"
    source := "comments", anchor_text := none, position := none }

/-- The comment-part loop of `_parse_docx` over parse outcomes in sorted
part-name order. -/
def commentsFromParts (anchors : List (String × Anchor))
    (people : List (String × String)) :
    List (Option Elem) → List CommentRow × List (String × String) →
    List CommentRow × List (String × String)
  | [], acc => acc
  | none :: _, (rows, byId) => (rows ++ [unparsedPartRow], byId)
  | some t :: rest, acc => commentsFromParts anchors people rest (commentRowsOfPart anchors people t acc)

/-- The anchor-synthesis pass: give every anchored id a nonempty
`comments_by_id` entry (placeholder when unreadable) and append a
synthetic `comments_anchor` row when no part row carries the id. -/
def anchorSynthetics (anchors : List (String × Anchor))
    (rows0 : List CommentRow) (byId0 : List (String × String)) :
    List CommentRow × List (String × String) :=
  let existing := rows0.filterMap (fun r =>
    r.id.bind (fun i => if pyStrip i ≠ "" then some (pyStrip i) else none))
  anchors.foldl (fun (acc : List CommentRow × List (String × String)) kv =>
    let (rows, byId) := acc
    let clean := pyStrip kv.1
    if clean = "" then (rows, byId)
    else
      let byId' :=
        if optFalsy (alGet byId clean)
        then alSet byId clean ("Comment attached in document (id: " ++ clean ++ ")")
        else byId
      if existing.contains clean then (rows, byId')
      else
        (rows ++ [{ id := some clean, author := none, timestamp := none
                    text := (alGet byId' clean).getD ""
                    source := "comments_anchor"
                    anchor_text := some kv.2.anchor_text
                    position := some kv.2.position }], byId')) (rows0, byId0)

/-- One extraction redline event (absent dict keys are `none`;
`position` is attached later by `_annotate_event_positions`). -/
structure EventR where
  type : String
  text : String
  author : Option String
  timestamp : Option String
  source : String
  comment_ids : List String
  comment_text : Option String
  paragraph_text : String
  position : Option Nat
deriving DecidableEq, Repr

/-- The `linked_comment_text` computation shared by both event kinds. -/
def linkedCommentText (byId : List (String × String)) (ids : List String) :
    Option String :=
  let linked := ids.filterMap (fun cid =>
    match alGet byId cid with
    | some v => if v ≠ "" then some v else none
    | none => none)
  let lt : Option String :=
    if linked ≠ [] then some (pyStrip (" ".intercalate linked)) else none
  if optFalsy lt ∧ ids ≠ [] then
    some ("Comment attached in document (id: " ++ ", ".intercalate (ids.take 3) ++ ")")
  else lt

/-- The per-paragraph event pass of `_parse_docx`: insertion events (from
`.//w:ins` with nonempty text), then deletion events (from `.//w:del`
with nonempty deleted text). -/
def eventsOfParagraph (byId : List (String × String))
    (activeMap : List (Nat × List String)) (p : Elem) : List EventR :=
  let ptext := collectText p
  let pids := collectCommentIds p
  let insEvents := (findAllDesc (fun n => n.tag == wTag "ins") p).filterMap (fun n =>
    let text := collectText n
    if text = "" then none
    else
      let inherited := (alGet activeMap n.eid).getD []
      let ids := dedupKeepFirst (pids ++ inherited ++ collectCommentIds n)
      some { type := "insertion", text := text
             author := attrGet n (wTag "author"), timestamp := attrGet n (wTag "date")
             source := "track_changes", comment_ids := ids
             comment_text := linkedCommentText byId ids
             paragraph_text := ptext, position := none })
  let delEvents := (findAllDesc (fun n => n.tag == wTag "del") p).filterMap (fun n =>
    let text := collectDeletedText n
    if text = "" then none
    else
      let inherited := (alGet activeMap n.eid).getD []
      let ids := dedupKeepFirst (pids ++ inherited ++ collectCommentIds n)
      some { type := "deletion", text := text
             author := attrGet n (wTag "author"), timestamp := attrGet n (wTag "date")
             source := "track_changes", comment_ids := ids
             comment_text := linkedCommentText byId ids
             paragraph_text := ptext, position := none })
  insEvents ++ delEvents

/-- The tracked-change event pass over all paragraphs. -/
def redlineEventsRaw (byId : List (String × String))
    (activeMap : List (Nat × List String)) (root : Elem) : List EventR :=
  (findAllDesc (fun n => n.tag == wTag "p") root).flatMap
    (eventsOfParagraph byId activeMap)

/-- The comment-range fallback events (only used when no tracked events
exist). -/
def rangeFallbackEvents (byId : List (String × String))
    (ranges : List (String × String)) : List EventR :=
  ranges.filterMap (fun kv =>
    let clean := squashWs kv.2
    if clean = "" then none
    else
      let v := pyStrip ((alGet byId kv.1).getD "")
      let lct := if v ≠ "" then v else "Comment attached in document (id: " ++ kv.1 ++ ")"
      some { type := "comment_range", text := clean, author := none, timestamp := none
             source := "comment_range", comment_ids := [kv.1], comment_text := some lct
             paragraph_text := clean, position := none })

/-- The `if not comments` fallback: synthesize one placeholder comment row
per distinct nonempty-stripped id referenced by any event. -/
def syntheticCommentRows (events : List EventR) : List CommentRow :=
  let ids := events.foldl (fun acc e =>
    e.comment_ids.foldl (fun acc cid =>
      let clean := pyStrip cid
      if clean ≠ "" ∧ ¬ acc.contains clean then acc ++ [clean] else acc) acc) []
  ids.map (fun cid =>
    { id := some cid, author := none, timestamp := none
      text := "Comment attached in document (id: " ++ cid ++ ")"
      source := "comments_anchor_only", anchor_text := none, position := none })

/-- `_annotate_event_positions` cursor loop over events. -/
def annotateEventsGo (lowered : String) (cursor : Nat) : List EventR → List EventR
  | [] => []
  | e :: rest =>
    if e.position.isSome then e :: annotateEventsGo lowered cursor rest
    else
      let text := pyStrip e.text
      if text = "" then e :: annotateEventsGo lowered cursor rest
      else
        let needle := strLower text
        let idx := match pyFind lowered needle cursor with
          | some i => some i
          | none => pyFind lowered needle 0
        match idx with
        | some i =>
          { e with position := some i } :: annotateEventsGo lowered (i + max 1 needle.length) rest
        | none => e :: annotateEventsGo lowered cursor rest

/-- `_annotate_event_positions(raw_text, redline_events)`. -/
def annotateEvents (raw : String) (events : List EventR) : List EventR :=
  if raw = "" ∨ events = [] then events else annotateEventsGo (strLower raw) 0 events

/-- `_annotate_event_positions` cursor loop over comment rows. -/
def annotateCommentsGo (lowered : String) (cursor : Nat) : List CommentRow → List CommentRow
  | [] => []
  | e :: rest =>
    if e.position.isSome then e :: annotateCommentsGo lowered cursor rest
    else
      let text := pyStrip e.text
      if text = "" then e :: annotateCommentsGo lowered cursor rest
      else
        let needle := strLower text
        let idx := match pyFind lowered needle cursor with
          | some i => some i
          | none => pyFind lowered needle 0
        match idx with
        | some i =>
          { e with position := some i } :: annotateCommentsGo lowered (i + max 1 needle.length) rest
        | none => e :: annotateCommentsGo lowered cursor rest

/-- `_annotate_event_positions(raw_text, comments, text_key="text")`. -/
def annotateComments (raw : String) (rows : List CommentRow) : List CommentRow :=
  if raw = "" ∨ rows = [] then rows else annotateCommentsGo (strLower raw) 0 rows

/-- The extraction result (`ParsedCorpusDocument`). -/
structure ParsedDoc where
  raw_text : String
  redline_events : List EventR
  comments : List CommentRow
  parser_status : String
  parse_error : Option String
deriving DecidableEq, Repr

/-- `CorpusParserService._parse_docx` after the archive reads succeeded and
`word/document.xml` parsed to `root`.  `commentParts` are the
`ET.fromstring` outcomes of the `word/comments*.xml` entries in sorted
name order (`none` = parse failure); `people` is the parsed
`word/people.xml` tree when the entry exists and parses (`_parse_people_xml`
returns an empty map on parse failure, so absent and unparseable
coincide). -/
def parseDocxFromTrees (root : Elem) (commentParts : List (Option Elem))
    (people : Option Elem) : ParsedDoc :=
  let activeMap := collectActiveCommentIdsByElement root
  let ranges := collectCommentRangeTexts root
  let rows := paragraphRows root
  let raw := pyStrip ("\n\n".intercalate (rows.map (·.text)))
  let anchors := commentAnchors rows
  let peopleMap := match people with
    | some pr => parsePeopleXml pr
    | none => []
  let s1 := commentsFromParts anchors peopleMap commentParts ([], [])
  let s2 := anchorSynthetics anchors s1.1 s1.2
  let events0 := redlineEventsRaw s2.2 activeMap root
  let events1 :=
    if events0 = [] ∧ ranges ≠ [] then rangeFallbackEvents s2.2 ranges else events0
  let comments1 := if s2.1 = [] then syntheticCommentRows events1 else s2.1
  { raw_text := raw
    redline_events := annotateEvents raw events1
    comments := annotateComments raw comments1
    parser_status := "ready"
    parse_error := none }

end CorpusParser

namespace RedlineEditor

/-- `RedlineDecision` (a dataclass; `source_type`, `source_index` and
`action` are required, the rest default to `None`). -/
structure RedlineDecision where
  source_type : String
  source_index : Int
  action : String
  source_position : Option Int := none
  source_comment_id : Option String := none
  source_text : Option String := none
  source_context_text : Option String := none
  modified_text : Option String := none
  reply_comment : Option String := none
deriving DecidableEq, Repr

/-- `DocxRedlineEditorService._local_name`: `tag.split("}", 1)[1]` when a
brace occurs, else the tag. -/
def localName (tag : String) : String :=
  if pyContains tag "\x7d" then
    ((splitOnCh tag '\x7d').tail).foldl (fun acc piece =>
      if acc = "" then piece else acc ++ "\x7d" ++ piece) ""
  else tag

/-- `DocxRedlineEditorService._collect_text` (same body as the parser's). -/
def collectText (e : Elem) : String :=
  pyStrip (String.join ((findAllDesc (fun n => n.tag == wTag "t") e).filterMap
    (fun n => match n.text with
      | some t => if t ≠ "" then some t else none
      | none => none)))

/-- `DocxRedlineEditorService._collect_deleted_text`. -/
def collectDeletedText (e : Elem) : String :=
  let parts := (findAllDesc (fun n => n.tag == wTag "delText") e).filterMap
    (fun n => match n.text with
      | some t => if t ≠ "" then some t else none
      | none => none)
  if parts ≠ [] then pyStrip (String.join parts) else collectText e

/-- `DocxRedlineEditorService._collect_comment_ids` (no deduplication,
unlike the parser's variant; `None` elements yield `[]` at call sites). -/
def collectCommentIds (e : Elem) : List String :=
  (descOrSelf e).filterMap (fun n =>
    let lt := strLower (CorpusParser.localName n.tag)
    if lt == "commentrangestart" ∨ lt == "commentreference" then
      (n.attrs.find? (fun kv => strLower (CorpusParser.localName kv.1) == "id")).map (·.2)
    else none)

/-- `DocxRedlineEditorService._collect_tracked_nodes`: paragraph traversal
order, all `.//w:ins` of a paragraph before its `.//w:del`. -/
def collectTrackedNodes (root : Elem) : List Elem :=
  (findAllDesc (fun n => n.tag == wTag "p") root).flatMap (fun p =>
    findAllDesc (fun n => n.tag == wTag "ins") p ++
    findAllDesc (fun n => n.tag == wTag "del") p)

/-- The `or`-chained node text used during resolution:
`_normalize_text(_collect_text(node) or _collect_deleted_text(node))`. -/
def nodeTextOf (n : Elem) : String :=
  normalizeText (let c := collectText n; if c ≠ "" then c else collectDeletedText n)

/-- The score the scan of `_resolve_tracked_node` considers for one node:
the similarity of its text to the source text, boosted to at least 0.92
when one normalized text contains the other. -/
def boostedScore (n : Elem) (sourceText : String) : Frac :=
  let ntext := nodeTextOf n
  let score0 := similarity ntext sourceText
  if pyContains ntext sourceText ∨ pyContains sourceText ntext then
    Frac.pymax score0 ⟨92, 100⟩
  else score0

/-- The best-match scan of `_resolve_tracked_node`: best node and score over
all tracked nodes with nonempty text; strictly-greater updates keep the
earliest best. -/
def scanBest (trackedNodes : List Elem) (sourceText : String) : Option Elem × Frac :=
  trackedNodes.foldl (fun best node =>
    if nodeTextOf node = "" then best
    else if Frac.lt best.2 (boostedScore node sourceText) then
      (some node, boostedScore node sourceText)
    else best) (none, ⟨0, 1⟩)

/-- `DocxRedlineEditorService._resolve_tracked_node`. -/
def resolveTrackedNode (trackedNodes : List Elem) (d : RedlineDecision) : Option Elem :=
  if trackedNodes.isEmpty then none
  else
    let idx := d.source_index
    let indexed : Option Elem :=
      if 0 ≤ idx ∧ idx < (trackedNodes.length : Int) then trackedNodes[idx.toNat]?
      else none
    let sourceText := normalizeText (d.source_text.getD "")
    match indexed with
    | some n =>
      if sourceText ≠ "" ∧ nodeTextOf n ≠ "" ∧ Frac.le ⟨75, 100⟩ (similarity (nodeTextOf n) sourceText)
      then some n
      else if sourceText = "" then some n
      else
        let best := scanBest trackedNodes sourceText
        match best.1 with
        | some b => if Frac.le ⟨45, 100⟩ best.2 then some b else none
        | none => none
    | none =>
      if sourceText ≠ "" then
        let best := scanBest trackedNodes sourceText
        match best.1 with
        | some b => if Frac.le ⟨45, 100⟩ best.2 then some b else none
        | none => none
      else none

/-- `x - y ≥ t` on score fractions (computed in `Int` to avoid truncation). -/
def Frac.diffGe (x y t : Frac) : Bool :=
  ((x.num : Int) * y.den - (y.num : Int) * x.den) * t.den ≥
    (t.num : Int) * ((x.den : Int) * y.den)

/-- Stable descending insertion for the score sort
(`matches.sort(key=score, reverse=True)`). -/
def insertDesc (x : Elem × Frac) : List (Elem × Frac) → List (Elem × Frac)
  | [] => [x]
  | y :: ys => if Frac.lt y.2 x.2 then x :: y :: ys else y :: insertDesc x ys

/-- Stable sort by score, descending (equal scores keep input order, as
Python's stable sort does). -/
def sortByScoreDesc (l : List (Elem × Frac)) : List (Elem × Frac) :=
  l.foldl (fun acc x => insertDesc x acc) []

/-- `DocxRedlineEditorService._build_paragraph_spans`: cursor spans over
whitespace-squashed nonempty paragraph texts, two characters apart. -/
def buildParagraphSpans (paragraphs : List Elem) : List (Elem × Nat × Nat) :=
  (paragraphs.foldl (fun (acc : List (Elem × Nat × Nat) × Nat) p =>
    let clean := squashWs (collectText p)
    if clean = "" then acc
    else
      let start := acc.2
      let stop := start + clean.length
      (acc.1 ++ [(p, start, stop)], stop + 2)) ([], 0)).1

/-- `DocxRedlineEditorService._resolve_reply_paragraph`. -/
def resolveReplyParagraph (allParagraphs : List Elem)
    (spans : List (Elem × Nat × Nat)) (sourcePosition : Option Int)
    (sourceText sourceContextText : String) (sourceIndex : Option Int) :
    Option Elem :=
  let target := normalizeText (if sourceContextText ≠ "" then sourceContextText else sourceText)
  let lastResort : Option Elem :=
    match sourceIndex with
    | some si =>
      if spans.isEmpty then none
      else
        let idx := max 0 (min ((spans.length : Int) - 1) si)
        (spans[idx.toNat]?).map (·.1)
    | none => none
  match sourcePosition with
  | some pos =>
    if spans.isEmpty then none
    else
      let acc := spans.foldl
        (fun (acc : Option Elem × Option Elem × Option Int) sp =>
          if (sp.2.1 : Int) ≤ pos ∧ pos ≤ (sp.2.2 : Int) then
            (some sp.1, some sp.1, some 0)
          else
            let distance : Int := min (pos - (sp.2.1 : Int)).natAbs (pos - (sp.2.2 : Int)).natAbs
            match acc.2.2 with
            | none => (acc.1, some sp.1, some distance)
            | some bd =>
              if distance < bd then (acc.1, some sp.1, some distance)
              else (acc.1, acc.2.1, some bd))
        (none, none, none)
      match acc.1 with
      | some containing => some containing
      | none =>
        match acc.2.1, acc.2.2 with
        | some best, some bd => if bd ≤ 200 then some best else none
        | _, _ => none
  | none =>
    if target ≠ "" then
      let cands := allParagraphs.filterMap (fun p =>
        let text := normalizeText (collectText p)
        if text = "" then none
        else
          let score0 := similarity text target
          let score :=
            if pyContains text target ∨ pyContains target text then
              Frac.pymax score0 ⟨96, 100⟩
            else score0
          if Frac.le ⟨9, 10⟩ score then some (p, score) else none)
      match cands with
      | [m] => some m.1
      | _ :: _ :: _ =>
        let sorted := sortByScoreDesc cands
        match sorted with
        | m1 :: m2 :: _ =>
          if Frac.le ⟨95, 100⟩ m1.2 ∧ Frac.diffGe m1.2 m2.2 ⟨5, 100⟩ then some m1.1
          else
            match sourceIndex with
            | some si =>
              let idx := max 0 (min ((cands.length : Int) - 1) si)
              (sorted[idx.toNat]?).map (·.1)
            | none => lastResort
        | _ => lastResort
      | [] => lastResort
    else lastResort

/-- `DocxRedlineEditorService._find_paragraph_by_comment_id`. -/
def findParagraphByCommentId (root : Elem) (commentId : String) : Option Elem :=
  let wanted := pyStrip commentId
  if wanted = "" then none
  else
    (findAllDesc (fun n => n.tag == wTag "p") root).find? (fun p =>
      (descOrSelf p).any (fun n =>
        let lt := strLower (CorpusParser.localName n.tag)
        (lt == "commentrangestart" || lt == "commentreference") &&
        n.attrs.any (fun kv =>
          strLower (CorpusParser.localName kv.1) == "id" && pyStrip kv.2 == wanted)))

mutual
/-- Child-index path from an element down to the descendant-or-self with
the given object id (first one in preorder). -/
def pathToE (target : Nat) : Elem → Option (List Nat)
  | .mk i _ _ _ cs => if i = target then some [] else pathToL target 0 cs

def pathToL (target : Nat) (idx : Nat) : List Elem → Option (List Nat)
  | [] => none
  | c :: cs =>
    match pathToE target c with
    | some p => some (idx :: p)
    | none => pathToL target (idx + 1) cs
end

/-- `DocxRedlineEditorService._find_ancestor`: walk the parent chain of the
node with the given id, returning the nearest ancestor with the wanted
local name. -/
def findAncestor (root : Elem) (eid : Nat) (local_ : String) : Option Elem :=
  match pathToE eid root with
  | none => none
  | some p =>
    ((List.range p.length).reverse).findSome? (fun k =>
      (getPath (p.take k) root).bind (fun e =>
        if localName e.tag = local_ then some e else none))

/-- `DocxRedlineEditorService._make_run`: a fresh `w:r` holding one `w:t`
with the text, `xml:space="preserve"` when an end is a space. -/
def makeRun (fresh : Nat) (text : String) : Elem × Nat :=
  let attrsT :=
    if text ≠ "" ∧ (pyStartsWith text " " ∨ pyEndsWith text " ") then
      [(xmlSpaceKey, "preserve")]
    else []
  (.mk fresh (wTag "r") [] none [.mk (fresh + 1) (wTag "t") attrsT (some text) []],
   fresh + 2)

/-- `DocxRedlineEditorService._apply_single_decision` (the `node` value is
the live state of the resolved tracked node; surgery targets it by
identity inside `root`).  An unsupported action is the one fatal error
(`ValueError`). -/
def applySingleDecision (root : Elem) (fresh : Nat) (node : Elem) (action : String)
    (modifiedText : Option String) : Except String (Elem × Nat) :=
  let tag := localName node.tag
  if ¬ (tag = "ins" ∨ tag = "del") then .ok (root, fresh)
  else if (parentE node.eid root).isNone then .ok (root, fresh)
  else
    let na := strLower (pyStrip action)
    if ¬ (na = "accept" ∨ na = "modify" ∨ na = "reject" ∨ na = "reply") then
      .error ("Unsupported action: " ++ action)
    else if na = "reply" then .ok (root, fresh)
    else if tag = "ins" then
      if na = "reject" then .ok (replE node.eid [] root, fresh)
      else if na = "accept" then
        let copies := relabelL fresh node.children
        .ok (replE node.eid copies.1 root, copies.2)
      else
        let mt := modifiedText.getD ""
        let content := if mt ≠ "" then mt else collectText node
        let run := makeRun fresh content
        .ok (replE node.eid [run.1] root, run.2)
    else
      if na = "accept" then .ok (replE node.eid [] root, fresh)
      else if na = "reject" then
        let restored := collectDeletedText node
        if restored ≠ "" then
          let run := makeRun fresh restored
          .ok (replE node.eid [run.1] root, run.2)
        else .ok (replE node.eid [] root, fresh)
      else
        let mt := modifiedText.getD ""
        let rt := pyStrip (if mt ≠ "" then mt else collectDeletedText node)
        if rt ≠ "" then
          let run := makeRun fresh rt
          .ok (replE node.eid [run.1] root, run.2)
        else .ok (replE node.eid [] root, fresh)

/-- `DocxRedlineEditorService._next_comment_id`: one plus the largest
`int`-parseable `w:id` among `.//w:comment` of this tree (and only this
tree), `-1 + 1 = 0` when there is none. -/
def nextCommentId (commentsRoot : Elem) : Int :=
  ((findAllDesc (fun n => n.tag == wTag "comment") commentsRoot).foldl
    (fun maxId c =>
      match attrGet c (wTag "id") with
      | some raw =>
        match pyParseInt raw with
        | some v => max maxId v
        | none => maxId
      | none => maxId) (-1)) + 1

/-- `DocxRedlineEditorService._make_comment_node` (the `parent_comment_id`
parameter exists in the source but is never used by the body). -/
def makeCommentNode (fresh : Nat) (commentId : Int) (text : String) (now : String)
    (author : String) (parentCommentId : Option String) : Elem × Nat :=
  let _unusedParent := parentCommentId
  (.mk fresh (wTag "comment")
     [(wTag "id", toString commentId), (wTag "author", author), (wTag "date", now)]
     none
     [.mk (fresh + 1) (wTag "p") [] none
       [.mk (fresh + 2) (wTag "r") [] none
         [.mk (fresh + 3) (wTag "t") [] (some text) []]]],
   fresh + 4)

/-- The three nodes `_attach_comment_reference` appends at paragraph end:
`commentRangeStart`, `commentRangeEnd`, then a run holding the
`commentReference`. -/
def commentRefNodes (fresh : Nat) (commentId : Int) : List Elem × Nat :=
  ([.mk fresh (wTag "commentRangeStart") [(wTag "id", toString commentId)] none [],
    .mk (fresh + 1) (wTag "commentRangeEnd") [(wTag "id", toString commentId)] none [],
    .mk (fresh + 2) (wTag "r") [] none
      [.mk (fresh + 3) (wTag "commentReference") [(wTag "id", toString commentId)] none []]],
   fresh + 4)

/-- `DocxRedlineEditorService._first_matching_comment_id`. -/
def firstMatchingCommentId (commentsRoot : Elem) (candidateIds : List String) :
    Option String :=
  let wanted := (candidateIds.map pyStrip).filter (· ≠ "")
  if wanted.isEmpty then none
  else
    (findAllDesc (fun n => n.tag == wTag "comment") commentsRoot).findSome? (fun c =>
      (attrGet c (wTag "id")).bind (fun raw =>
        let clean := pyStrip raw
        if wanted.contains clean then some clean else none))

/-- `DocxRedlineEditorService._apply_replies_as_docx_comments`: each pending
reply becomes a fresh top-level comment node (ids counting up from
`_next_comment_id`), and the owning paragraph gets the reference triple
appended.  Returns the updated document root, comments root, and fresh
counter. -/
def applyRepliesAsDocxComments (docRoot commentsRoot : Elem) (fresh : Nat)
    (now : String) (replies : List (Nat × String × List String)) :
    Elem × Elem × Nat :=
  let start := nextCommentId commentsRoot
  let r := replies.foldl
    (fun (acc : Elem × Elem × Nat × Int) reply =>
      let pid := firstMatchingCommentId acc.2.1 reply.2.2
      let mc := makeCommentNode acc.2.2.1 acc.2.2.2 reply.2.1 now "Nego User" pid
      let cr := acc.2.1
      let cr' := Elem.mk cr.eid cr.tag cr.attrs cr.text (cr.children ++ [mc.1])
      let refs := commentRefNodes mc.2 acc.2.2.2
      (appendE reply.1 refs.1 acc.1, cr', refs.2, acc.2.2.2 + 1))
    (docRoot, commentsRoot, fresh, start)
  (r.1, r.2.1, r.2.2.1)

/-- One zip entry of the package: name, content bytes, and the outcome of
`ET.fromstring` on those bytes (`none` = parse failure).  Byte strings
are modelled as `String`. -/
structure ZipItem where
  name : String
  bytes : String
  parsed : Option Elem

/-- `pathlib.Path(name).suffix` (enough of it for real file names): the
last dot-suffix of the final path component, empty for dotless or hidden
names. -/
def pathSuffix (fileName : String) : String :=
  let base := ((splitOnCh fileName '/').getLast?).getD fileName
  match splitOnCh base '.' with
  | [] => ""
  | [_] => ""
  | first :: rest =>
    if first = "" ∧ rest.length = 1 then ""
    else
      let lastPart := (rest.getLast?).getD ""
      if lastPart = "" then "" else "." ++ lastPart

/-- Stable insertion into a sorted string list. -/
def insertSortedStr (s : String) : List String → List String
  | [] => [s]
  | x :: xs => if strLe s x then s :: x :: xs else x :: insertSortedStr s xs

/-- `comment_part_names.sort()`: lexicographic sort. -/
def sortStrings (l : List String) : List String :=
  l.foldr insertSortedStr []

/-- `archive.read(name)` entry lookup. -/
def zipLookup (pkg : List ZipItem) (n : String) : Option ZipItem :=
  pkg.find? (fun it => it.name == n)

/-- The names matching the editor's comment-part filter
(`startswith("word/comments") and endswith(".xml")`), sorted. -/
def commentPartNames (pkg : List ZipItem) : List String :=
  sortStrings ((pkg.map (·.name)).filter
    (fun n => pyStartsWith n "word/comments" ∧ pyEndsWith n ".xml"))

/-- `comments_parts`: the successfully parsed comment parts keyed by name,
in sorted-name order; its head is `comments_root`. -/
def parsedCommentParts (pkg : List ZipItem) : List (String × Elem) :=
  (commentPartNames pkg).filterMap (fun n =>
    (zipLookup pkg n).bind (fun it => it.parsed.map (fun t => (n, t))))

/-- The live state of a pre-batch object: its current subtree when still
attached to the tree, its last-known value otherwise. -/
def liveOf (root : Elem) (p : Elem) : Elem := (getE p.eid root).getD p

/-- Mutable state threaded through the decision loop: the document tree,
the fresh-object counter, and the pending replies
`(paragraph id, note, candidate parent comment ids)`. -/
structure LoopState where
  root : Elem
  fresh : Nat
  pending : List (Nat × String × List String)

/-- One iteration of the decision loop of `apply_decisions`.  The
`trackedNodes0`/`allParagraphs0`/`spans0` lists are the pre-batch
snapshots (node identity is resolved against them, their content read
through `liveOf` against the current tree, as the live Python objects
would read). -/
def processDecision (trackedNodes0 allParagraphs0 : List Elem)
    (spans0 : List (Elem × Nat × Nat)) (hasCommentsParts : Bool)
    (st : LoopState) (d : RedlineDecision) : Except String LoopState :=
  if ¬ (d.source_type = "redline" ∨ d.source_type = "comment") then .ok st
  else
    let trackedNodes := trackedNodes0.map (liveOf st.root)
    let allParagraphs := allParagraphs0.map (liveOf st.root)
    let spans := spans0.map (fun sp => (liveOf st.root sp.1, sp.2))
    let na := strLower (pyStrip d.action)
    if d.source_type = "comment" then
      let note := pyStrip (d.reply_comment.getD "")
      if note = "" then .ok st
      else
        let scid := pyStrip (d.source_comment_id.getD "")
        let direct :=
          if hasCommentsParts ∧ scid ≠ "" then
            findParagraphByCommentId st.root (d.source_comment_id.getD "")
          else none
        match direct with
        | some tp =>
          .ok { st with pending := st.pending ++ [(tp.eid, note, [d.source_comment_id.getD ""])] }
        | none =>
          match resolveReplyParagraph allParagraphs spans d.source_position
              (d.source_text.getD "") (d.source_context_text.getD "")
              (some d.source_index) with
          | none => .ok st
          | some rp =>
            .ok { st with pending := st.pending ++ [(rp.eid, note, collectCommentIds rp)] }
    else
      let node := resolveTrackedNode trackedNodes d
      if na = "reply" then
        let note := pyStrip (d.reply_comment.getD "")
        if note = "" then .ok st
        else
          let scid := pyStrip (d.source_comment_id.getD "")
          let direct :=
            if hasCommentsParts ∧ scid ≠ "" then
              findParagraphByCommentId st.root (d.source_comment_id.getD "")
            else none
          match direct with
          | some tp =>
            .ok { st with pending := st.pending ++ [(tp.eid, note, [d.source_comment_id.getD ""])] }
          | none =>
            let rp0 := resolveReplyParagraph allParagraphs spans d.source_position
              (d.source_text.getD "") (d.source_context_text.getD "") none
            let rp := match rp0 with
              | some p => some p
              | none =>
                match node with
                | some n => findAncestor st.root n.eid "p"
                | none => none
            match rp with
            | none => .ok st
            | some p =>
              let ids := collectCommentIds p ++
                (match node with | some n => collectCommentIds n | none => [])
              .ok { st with pending := st.pending ++ [(p.eid, note, dedupKeepFirst ids)] }
      else
        match node with
        | none =>
          let note := pyStrip (d.reply_comment.getD "")
          if note ≠ "" then
            match resolveReplyParagraph allParagraphs spans d.source_position
                (d.source_text.getD "") (d.source_context_text.getD "")
                (some d.source_index) with
            | some rp =>
              .ok { st with pending := st.pending ++ [(rp.eid, note, collectCommentIds rp)] }
            | none => .ok st
          else .ok st
        | some n =>
          let paragraph := findAncestor st.root n.eid "p"
          let ids := collectCommentIds n ++
            (match paragraph with | some p => collectCommentIds p | none => [])
          let uniqueIds := dedupKeepFirst ids
          match applySingleDecision st.root st.fresh n d.action d.modified_text with
          | .error msg => .error msg
          | .ok res =>
            let pending' :=
              match paragraph, d.reply_comment with
              | some p, some rc =>
                if rc ≠ "" ∧ pyStrip rc ≠ "" then st.pending ++ [(p.eid, pyStrip rc, uniqueIds)]
                else st.pending
              | _, _ => st.pending
            .ok { root := res.1, fresh := res.2, pending := pending' }

/-- The decision loop. -/
def runBatch (trackedNodes0 allParagraphs0 : List Elem)
    (spans0 : List (Elem × Nat × Nat)) (hasCommentsParts : Bool) :
    LoopState → List RedlineDecision → Except String LoopState
  | st, [] => .ok st
  | st, d :: ds =>
    match processDecision trackedNodes0 allParagraphs0 spans0 hasCommentsParts st d with
    | .error e => .error e
    | .ok st' => runBatch trackedNodes0 allParagraphs0 spans0 hasCommentsParts st' ds

/-- Fresh object ids start above every id of the parsed trees. -/
def maxEidAll (root : Elem) (parts : List (String × Elem)) : Nat :=
  parts.foldl (fun m kv => max m (freshAfter kv.2)) (freshAfter root)

/-- `apply_decisions` up to (but not including) re-serialisation: validates
the name and the package, runs the decision loop, then injects pending
replies into the first parsed comment part (skipping them entirely when
no comment part parsed).  Returns the final document tree and the final
comment-part trees in sorted-name order. -/
def runPipeline (now fileName : String) (pkg : List ZipItem)
    (decisions : List RedlineDecision) :
    Except String (Elem × List (String × Elem)) :=
  if strLower (pathSuffix fileName) ≠ ".docx" then
    .error "In-file redline updates are currently supported only for .docx"
  else if decisions.isEmpty then .error "No redline decisions provided"
  else
    match zipLookup pkg "word/document.xml" with
    | none => .error "Invalid DOCX: missing word/document.xml"
    | some docItem =>
      match docItem.parsed with
      | none => .error "Failed to parse DOCX XML"
      | some root =>
        let parts := parsedCommentParts pkg
        let trackedNodes := collectTrackedNodes root
        let allParagraphs := findAllDesc (fun n => n.tag == wTag "p") root
        let spans := buildParagraphSpans allParagraphs
        let fresh0 := maxEidAll root parts
        match runBatch trackedNodes allParagraphs spans (¬ parts.isEmpty)
            ⟨root, fresh0, []⟩ decisions with
        | .error e => .error e
        | .ok st =>
          if st.pending.isEmpty then .ok (st.root, parts)
          else
            match parts with
            | [] => .ok (st.root, parts)
            | (n0, t0) :: rest =>
              let r := applyRepliesAsDocxComments st.root t0 st.fresh now st.pending
              .ok (r.1, (n0, r.2.1) :: rest)

mutual
/-- Stand-in for `ET.tostring` on one element: a fixed deterministic
printer (the exact byte shape is irrelevant; determinism and
re-serialisation-not-equal-to-input are what matter). -/
def serializeE : Elem → String
  | .mk _ t a x cs =>
    "<" ++ t ++ String.join (a.map (fun kv => " " ++ kv.1 ++ "=\"" ++ kv.2 ++ "\"")) ++
      (if x.isNone ∧ cs.isEmpty then " />"
       else ">" ++ x.getD "" ++ serializeL cs ++ "</" ++ t ++ ">")

def serializeL : List Elem → String
  | [] => ""
  | c :: cs => serializeE c ++ serializeL cs
end

/-- `ET.tostring(root, encoding="utf-8", xml_declaration=True)`. -/
def serializeDoc (e : Elem) : String :=
  "<?xml version=\"1.0\" encoding=\"utf-8\"?>\n" ++ serializeE e

/-- `DocxRedlineEditorService.apply_decisions`: the full mutator.  The
output is the list of written zip entries `(name, bytes)` in input
order: the document part re-serialised, every successfully parsed
comment part re-serialised, all other entries copied byte-for-byte. -/
def applyDecisions (now fileName : String) (pkg : List ZipItem)
    (decisions : List RedlineDecision) : Except String (List (String × String)) :=
  match runPipeline now fileName pkg decisions with
  | .error e => .error e
  | .ok res =>
    .ok (pkg.map (fun it =>
      if it.name == "word/document.xml" then (it.name, serializeDoc res.1)
      else
        match alGet res.2 it.name with
        | some t => (it.name, serializeDoc t)
        | none => (it.name, it.bytes)))

end RedlineEditor

/-! ### Structural lemmas about the tree model -/

theorem Elem.induct (P : Elem → Prop)
    (h : ∀ i t a x cs, (∀ c ∈ cs, P c) → P (.mk i t a x cs)) : ∀ e, P e := by
  intro e
  refine Elem.rec (motive_1 := P) (motive_2 := fun cs => ∀ c ∈ cs, P c) ?_ ?_ ?_ e
  · intro i t a x cs ih
    exact h i t a x cs ih
  · intro c hc; cases hc
  · intro hd tl hhd htl c hc
    rcases List.mem_cons.mp hc with h1 | h2
    · exact h1 ▸ hhd
    · exact htl _ h2

/-- Child-id list, the tail part of `eidsOf`. -/
def eidsL (cs : List Elem) : List Nat :=
  homL (fun i _ _ _ => [i]) cs

theorem homE_mk (g : Nat → String → List (String × String) → Option String → List α)
    (i t a x cs) : homE g (.mk i t a x cs) = g i t a x ++ homL g cs := by
  simp [homE]

theorem homL_nil (g : Nat → String → List (String × String) → Option String → List α) :
    homL g [] = [] := by simp [homL]

theorem homL_cons (g : Nat → String → List (String × String) → Option String → List α)
    (c cs) : homL g (c :: cs) = homE g c ++ homL g cs := by
  simp [homL]

theorem homL_append (g : Nat → String → List (String × String) → Option String → List α)
    (l₁ l₂ : List Elem) : homL g (l₁ ++ l₂) = homL g l₁ ++ homL g l₂ := by
  induction l₁ with
  | nil => simp [homL_nil]
  | cons c cs ih => simp [homL_cons, ih]

theorem eidsOf_mk (i t a x cs) : eidsOf (.mk i t a x cs) = i :: eidsL cs := by
  simp [eidsOf, eidsL, homE_mk]

theorem eid_mem_eidsOf (e : Elem) : e.eid ∈ eidsOf e := by
  cases e with
  | mk i t a x cs => simp [eidsOf_mk, Elem.eid]

theorem mem_eidsL_of_mem {cs : List Elem} {c : Elem} (hc : c ∈ cs) {v : Nat}
    (hv : v ∈ eidsOf c) : v ∈ eidsL cs := by
  induction cs with
  | nil => cases hc
  | cons d ds ih =>
    rcases List.mem_cons.mp hc with h1 | h2
    · subst h1
      simpa [eidsL, homL_cons] using Or.inl hv
    · have := ih h2
      simpa [eidsL, homL_cons] using Or.inr (by simpa [eidsL] using this)

theorem replE_eq_of_not_mem {target : Nat} {repl : List Elem} :
    ∀ e : Elem, target ∉ eidsOf e → replE target repl e = e := by
  refine Elem.induct _ ?_
  intro i t a x cs ih hmem
  rw [eidsOf_mk] at hmem
  have hcs : ∀ c ∈ cs, target ∉ eidsOf c := by
    intro c hc hv
    exact hmem (List.mem_cons_of_mem _ (mem_eidsL_of_mem hc hv))
  have : replL target repl cs = cs := by
    clear hmem
    induction cs with
    | nil => simp [replL]
    | cons c cs' ihl =>
      have hne : c.eid ≠ target := by
        intro h
        exact hcs c (List.mem_cons_self _ _) (h ▸ eid_mem_eidsOf c)
      simp only [replL, if_neg hne]
      rw [ih c (List.mem_cons_self _ _) (hcs c (List.mem_cons_self _ _))]
      rw [ihl (fun c hc => ih c (List.mem_cons_of_mem _ hc))
          (fun c hc => hcs c (List.mem_cons_of_mem _ hc))]
      simp
  simp [replE, this]

theorem replL_eq_of_not_mem {target : Nat} {repl : List Elem} {cs : List Elem}
    (h : ∀ c ∈ cs, target ∉ eidsOf c) : replL target repl cs = cs := by
  induction cs with
  | nil => simp [replL]
  | cons c cs' ih =>
    have hne : c.eid ≠ target := by
      intro he
      exact h c (List.mem_cons_self _ _) (he ▸ eid_mem_eidsOf c)
    simp only [replL, if_neg hne]
    rw [replE_eq_of_not_mem c (h c (List.mem_cons_self _ _)),
        ih (fun c hc => h c (List.mem_cons_of_mem _ hc))]
    simp

theorem replL_append (target : Nat) (repl : List Elem) (l₁ l₂ : List Elem) :
    replL target repl (l₁ ++ l₂) = replL target repl l₁ ++ replL target repl l₂ := by
  induction l₁ with
  | nil => simp [replL]
  | cons c cs ih => simp [replL, ih]

theorem getPath_nil (e : Elem) : getPath [] e = some e := rfl

theorem getPath_cons (i : Nat) (p : List Nat) (e : Elem) :
    getPath (i :: p) e = (e.children[i]?).bind (getPath p) := rfl

theorem eid_mem_of_getPath : ∀ (p : List Nat) (e n : Elem),
    getPath p e = some n → n.eid ∈ eidsOf e := by
  intro p
  induction p with
  | nil =>
    intro e n h
    rw [getPath_nil, Option.some_inj] at h
    exact h ▸ eid_mem_eidsOf e
  | cons i p' ih =>
    intro e n h
    rw [getPath_cons] at h
    rcases Option.bind_eq_some.mp h with ⟨c, hc, hn⟩
    have hcm : c ∈ e.children := List.getElem?_mem hc
    cases e with
    | mk j t a x cs =>
      rw [eidsOf_mk]
      exact List.mem_cons_of_mem _ (mem_eidsL_of_mem hcm (ih c n hn))

theorem eid_mem_children_of_getPath : ∀ (p : List Nat) (e n : Elem),
    getPath p e = some n → p ≠ [] → n.eid ∈ eidsL e.children := by
  intro p e n h hne
  match p with
  | [] => exact absurd rfl hne
  | i :: p' =>
    rw [getPath_cons] at h
    rcases Option.bind_eq_some.mp h with ⟨c, hc, hn⟩
    exact mem_eidsL_of_mem (List.getElem?_mem hc) (eid_mem_of_getPath p' c n hn)

theorem eidsL_cons (c : Elem) (cs : List Elem) :
    eidsL (c :: cs) = eidsOf c ++ eidsL cs := by
  simp [eidsL, eidsOf, homL_cons]

theorem eidsL_append (l₁ l₂ : List Elem) :
    eidsL (l₁ ++ l₂) = eidsL l₁ ++ eidsL l₂ := by
  simp [eidsL, homL_append]

theorem nodup_eidsOf_of_mem {cs : List Elem} (hnd : (eidsL cs).Nodup) {c : Elem}
    (hc : c ∈ cs) : (eidsOf c).Nodup := by
  induction cs with
  | nil => cases hc
  | cons d ds ih =>
    rw [eidsL_cons, List.nodup_append] at hnd
    rcases List.mem_cons.mp hc with h1 | h2
    · exact h1 ▸ hnd.1
    · exact ih hnd.2.1 h2

theorem list_eq_take_cons_drop : ∀ (cs : List Elem) (i : Nat) (c : Elem),
    cs[i]? = some c → cs = cs.take i ++ c :: cs.drop (i + 1) := by
  intro cs
  induction cs with
  | nil => intro i c h; simp at h
  | cons d ds ih =>
    intro i c h
    cases i with
    | zero =>
      simp at h
      subst h
      simp
    | succ j =>
      simp only [List.getElem?_cons_succ] at h
      have := ih j c h
      simpa [List.take_succ_cons, List.drop_succ_cons] using congrArg (d :: ·) this

theorem homL_splice_at (g : Nat → String → List (String × String) → Option String → List α)
    (cs : List Elem) (i : Nat) (c : Elem) (h : cs[i]? = some c) :
    homL g cs = homL g (cs.take i) ++ homE g c ++ homL g (cs.drop (i + 1)) := by
  conv_lhs => rw [list_eq_take_cons_drop cs i c h]
  rw [homL_append, homL_cons]
  simp

/-- Siblings other than the one holding `target` never contain `target`. -/
theorem not_mem_siblings {cs : List Elem} {i : Nat} {c : Elem} {target : Nat}
    (h : cs[i]? = some c) (hnd : (eidsL cs).Nodup) (ht : target ∈ eidsOf c) :
    (∀ c' ∈ cs.take i, target ∉ eidsOf c') ∧
    (∀ c' ∈ cs.drop (i + 1), target ∉ eidsOf c') := by
  have hdec : eidsL cs = eidsL (cs.take i) ++ eidsOf c ++ eidsL (cs.drop (i + 1)) := by
    conv_lhs => rw [list_eq_take_cons_drop cs i c h]
    rw [eidsL_append, eidsL_cons]
    simp
  rw [hdec] at hnd
  rw [List.append_assoc] at hnd
  rw [List.nodup_append] at hnd
  obtain ⟨hnd1, hnd2, hdisj⟩ := hnd
  rw [List.nodup_append] at hnd2
  obtain ⟨hndc, hnd3, hdisj2⟩ := hnd2
  constructor
  · intro c' hc' hmem
    exact hdisj (mem_eidsL_of_mem hc' hmem) (List.mem_append_left _ ht)
  · intro c' hc' hmem
    exact hdisj2 ht (mem_eidsL_of_mem hc' hmem)

/-- Master surgery lemma: replacing the node reached by a (nonempty) path
with a replacement list splices the replacement's fold contributions
exactly where the node's were. -/
theorem homE_splice (g : Nat → String → List (String × String) → Option String → List α) :
    ∀ (p : List Nat) (root n : Elem), getPath p root = some n → p ≠ [] →
    (eidsOf root).Nodup →
    ∃ A B, homE g root = A ++ homE g n ++ B ∧
      ∀ repl, homE g (replE n.eid repl root) = A ++ homL g repl ++ B := by
  intro p
  induction p with
  | nil => intro root n _ hne _; exact absurd rfl hne
  | cons i p' ih =>
    intro root n hpath _ hnd
    cases root with
    | mk rid t a x cs =>
      rw [getPath_cons] at hpath
      simp only [Elem.children] at hpath
      rcases Option.bind_eq_some.mp hpath with ⟨c, hc, hn⟩
      rw [eidsOf_mk, List.nodup_cons] at hnd
      obtain ⟨hrid, hndL⟩ := hnd
      by_cases hp' : p' = []
      · subst hp'
        rw [getPath_nil, Option.some_inj] at hn
        subst hn
        have hsib := not_mem_siblings hc hndL (eid_mem_eidsOf c)
        refine ⟨g rid t a x ++ homL g (cs.take i), homL g (cs.drop (i + 1)), ?_, ?_⟩
        · rw [homE_mk, homL_splice_at g cs i c hc]
          simp
        · intro repl
          have hcs : replL c.eid repl cs =
              cs.take i ++ (repl ++ cs.drop (i + 1)) := by
            conv_lhs => rw [list_eq_take_cons_drop cs i c hc]
            rw [replL_append]
            simp only [replL, if_pos rfl]
            rw [replL_eq_of_not_mem hsib.1, replL_eq_of_not_mem hsib.2]
            simp
          simp only [replE, hcs]
          rw [homE_mk, homL_append, homL_append]
          simp
      · have hcm : c ∈ cs := List.getElem?_mem hc
        have hndc : (eidsOf c).Nodup := nodup_eidsOf_of_mem hndL hcm
        obtain ⟨A', B', hsplit, hrepl⟩ := ih c n hn hp' hndc
        have htc : n.eid ∈ eidsOf c := eid_mem_of_getPath p' c n hn
        have hne2 : c.eid ≠ n.eid := by
          have hchild : n.eid ∈ eidsL c.children := eid_mem_children_of_getPath p' c n hn hp'
          cases c with
          | mk ci ct ca cx ccs =>
            rw [eidsOf_mk, List.nodup_cons] at hndc
            intro he
            simp only [Elem.eid] at he
            simp only [Elem.children] at hchild
            exact hndc.1 (he ▸ hchild)
        have hsib := not_mem_siblings hc hndL htc
        refine ⟨g rid t a x ++ homL g (cs.take i) ++ A', B' ++ homL g (cs.drop (i + 1)), ?_, ?_⟩
        · rw [homE_mk, homL_splice_at g cs i c hc, hsplit]
          simp
        · intro repl
          have hcs : replL n.eid repl cs =
              cs.take i ++ (replE n.eid repl c :: cs.drop (i + 1)) := by
            conv_lhs => rw [list_eq_take_cons_drop cs i c hc]
            rw [replL_append]
            simp only [replL, if_neg hne2]
            rw [replL_eq_of_not_mem hsib.1, replL_eq_of_not_mem hsib.2]
            simp
          simp only [replE, hcs]
          rw [homE_mk, homL_append, homL_cons, hrepl repl]
          simp

theorem parentL_isSome_of_mem {target : Nat} {cs : List Elem} {c : Elem}
    (hc : c ∈ cs) (h : (parentE target c).isSome) : (parentL target cs).isSome := by
  induction cs with
  | nil => cases hc
  | cons d ds ih =>
    rcases ho : parentE target d with _ | r
    · rcases List.mem_cons.mp hc with h1 | h2
      · rw [h1, ho] at h; cases h
      · simpa [parentL, ho] using ih h2
    · simp [parentL, ho]

theorem parentE_isSome_of_path : ∀ (p : List Nat) (root n : Elem),
    getPath p root = some n → p ≠ [] → (parentE n.eid root).isSome := by
  intro p
  induction p with
  | nil => intro root n _ hne; exact absurd rfl hne
  | cons i p' ih =>
    intro root n hpath _
    cases root with
    | mk rid t a x cs =>
      rw [getPath_cons] at hpath
      simp only [Elem.children] at hpath
      rcases Option.bind_eq_some.mp hpath with ⟨c, hc, hn⟩
      by_cases hany : cs.any (fun c => c.eid = n.eid)
      · simp [parentE, hany]
      · by_cases hp' : p' = []
        · subst hp'
          rw [getPath_nil, Option.some_inj] at hn
          subst hn
          exact absurd (List.any_eq_true.mpr ⟨c, List.getElem?_mem hc, by simp⟩) hany
        · have hcsome := ih c n hn hp'
          have := parentL_isSome_of_mem (List.getElem?_mem hc) hcsome
          simpa [parentE, hany] using this

/-- Deep copies contribute the same fold values as their originals when the
contribution ignores object identity. -/
theorem homE_relabel (g : Nat → String → List (String × String) → Option String → List α)
    (hg : ∀ i j t a x, g i t a x = g j t a x) :
    ∀ e : Elem, ∀ f : Nat, homE g (relabelE f e).1 = homE g e := by
  refine Elem.induct _ ?_
  intro i t a x cs ih f
  have hl : ∀ (cs' : List Elem), (∀ c ∈ cs', ∀ f', homE g (relabelE f' c).1 = homE g c) →
      ∀ f', homL g (relabelL f' cs').1 = homL g cs' := by
    intro cs'
    induction cs' with
    | nil => intro _ f'; simp [relabelL, homL_nil]
    | cons c cs'' ihl =>
      intro hmem f'
      simp only [relabelL, homL_cons]
      rw [hmem c (List.mem_cons_self _ _) f',
          ihl (fun c hc => hmem c (List.mem_cons_of_mem _ hc)) _]
  simp only [relabelE, homE_mk]
  rw [hl cs ih (f + 1)]
  exact congrArg (· ++ homL g cs) (hg f i t a x)

theorem homL_relabel (g : Nat → String → List (String × String) → Option String → List α)
    (hg : ∀ i j t a x, g i t a x = g j t a x) (cs : List Elem) (f : Nat) :
    homL g (relabelL f cs).1 = homL g cs := by
  induction cs generalizing f with
  | nil => simp [relabelL]
  | cons c cs' ih =>
    simp only [relabelL, homL_cons]
    rw [homE_relabel g hg c f, ih _]

/-! ### Branch evaluations of `_apply_single_decision` -/

theorem applySingle_ins_accept (root : Elem) (fresh : Nat) (node : Elem) (mt : Option String)
    (htag : node.tag = wTag "ins") (hpar : (parentE node.eid root).isSome) :
    RedlineEditor.applySingleDecision root fresh node "accept" mt =
      .ok (replE node.eid (relabelL fresh node.children).1 root,
           (relabelL fresh node.children).2) := by
  obtain ⟨par, hp⟩ := Option.isSome_iff_exists.mp hpar
  unfold RedlineEditor.applySingleDecision
  rw [htag]
  have hloc : RedlineEditor.localName (wTag "ins") = "ins" := by decide
  have hacc : strLower (pyStrip "accept") = "accept" := by decide
  rw [hloc, hp]
  simp [hacc]

theorem applySingle_ins_reject (root : Elem) (fresh : Nat) (node : Elem) (mt : Option String)
    (htag : node.tag = wTag "ins") (hpar : (parentE node.eid root).isSome) :
    RedlineEditor.applySingleDecision root fresh node "reject" mt =
      .ok (replE node.eid [] root, fresh) := by
  obtain ⟨par, hp⟩ := Option.isSome_iff_exists.mp hpar
  unfold RedlineEditor.applySingleDecision
  rw [htag]
  have hloc : RedlineEditor.localName (wTag "ins") = "ins" := by decide
  have hrej : strLower (pyStrip "reject") = "reject" := by decide
  rw [hloc, hp]
  simp [hrej]

theorem applySingle_del_accept (root : Elem) (fresh : Nat) (node : Elem) (mt : Option String)
    (htag : node.tag = wTag "del") (hpar : (parentE node.eid root).isSome) :
    RedlineEditor.applySingleDecision root fresh node "accept" mt =
      .ok (replE node.eid [] root, fresh) := by
  obtain ⟨par, hp⟩ := Option.isSome_iff_exists.mp hpar
  unfold RedlineEditor.applySingleDecision
  rw [htag]
  have hloc : RedlineEditor.localName (wTag "del") = "del" := by decide
  have hacc : strLower (pyStrip "accept") = "accept" := by decide
  have hne : RedlineEditor.localName (wTag "del") ≠ "ins" := by decide
  rw [hloc, hp]
  simp [hacc]

theorem applySingle_del_reject (root : Elem) (fresh : Nat) (node : Elem) (mt : Option String)
    (htag : node.tag = wTag "del") (hpar : (parentE node.eid root).isSome) :
    RedlineEditor.applySingleDecision root fresh node "reject" mt =
      .ok (if RedlineEditor.collectDeletedText node ≠ "" then
             (replE node.eid [(RedlineEditor.makeRun fresh (RedlineEditor.collectDeletedText node)).1] root,
              (RedlineEditor.makeRun fresh (RedlineEditor.collectDeletedText node)).2)
           else (replE node.eid [] root, fresh)) := by
  obtain ⟨par, hp⟩ := Option.isSome_iff_exists.mp hpar
  unfold RedlineEditor.applySingleDecision
  rw [htag]
  have hloc : RedlineEditor.localName (wTag "del") = "del" := by decide
  have hrej : strLower (pyStrip "reject") = "reject" := by decide
  rw [hloc, hp]
  by_cases hres : RedlineEditor.collectDeletedText node ≠ ""
  · simp [hrej, hres]
  · simp [hrej, hres]

theorem applySingle_del_modify (root : Elem) (fresh : Nat) (node : Elem) (mt : Option String)
    (htag : node.tag = wTag "del") (hpar : (parentE node.eid root).isSome) :
    RedlineEditor.applySingleDecision root fresh node "modify" mt =
      (let rt := pyStrip (if mt.getD "" ≠ "" then mt.getD "" else RedlineEditor.collectDeletedText node)
       if rt ≠ "" then
         .ok (replE node.eid [(RedlineEditor.makeRun fresh rt).1] root,
              (RedlineEditor.makeRun fresh rt).2)
       else .ok (replE node.eid [] root, fresh)) := by
  obtain ⟨par, hp⟩ := Option.isSome_iff_exists.mp hpar
  unfold RedlineEditor.applySingleDecision
  rw [htag]
  have hloc : RedlineEditor.localName (wTag "del") = "del" := by decide
  have hmod : strLower (pyStrip "modify") = "modify" := by decide
  rw [hloc, hp]
  by_cases hrt : pyStrip (if mt.getD "" ≠ "" then mt.getD "" else RedlineEditor.collectDeletedText node) ≠ ""
  · simp [hmod, hrt]
  · simp [hmod, hrt]

/-! ### Fold values of pieces and created runs -/

theorem homE_wtG_nonT (e : Elem) (h : e.tag ≠ wTag "t") :
    homE wtG e = homL wtG e.children := by
  cases e with
  | mk i t a x cs =>
    simp only [Elem.tag] at h
    simp [homE_mk, wtG, h, Elem.children]

theorem wtPieces_makeRun (f : Nat) (s : String) :
    homL wtG [(RedlineEditor.makeRun f s).1] = [s] := by
  have h1 : ¬ (wTag "r" = wTag "t") := by decide
  by_cases hsp : s ≠ "" ∧ (pyStartsWith s " " ∨ pyEndsWith s " ") <;>
    simp [RedlineEditor.makeRun, homL_cons, homL_nil, homE_mk, wtG, h1, hsp]

theorem homE_tagG_self (tg : String) (e : Elem) :
    homE (tagG tg) e = (if e.tag = tg then [()] else []) ++ homL (tagG tg) e.children := by
  cases e with
  | mk i t a x cs => simp [homE_mk, tagG, Elem.tag, Elem.children]

theorem wtG_eid_irrel : ∀ i j t a x, wtG i t a x = wtG j t a x := by
  intro i j t a x; rfl

theorem tagG_eid_irrel (tg : String) : ∀ i j t a x, tagG tg i t a x = tagG tg j t a x := by
  intro i j t a x; rfl

/-- C1: for every document tree and tracked node (an element with tag
`w:ins` or `w:del` at a nonempty path in a tree of distinct object ids),
accepting an insertion keeps the insertion's `w:t` content in the body
with the wrapper element removed (the `w:ins` count drops by exactly one)
and rejecting it removes the node and its content from the body text;
accepting a deletion removes the node and all its content permanently,
and rejecting a deletion restores the deleted text into the body as one
plain run.  Body text is the spliced list of `w:t` pieces `wtPieces`. -/
theorem c1_tracked_node_mutation
    (root node : Elem) (p : List Nat) (fresh : Nat) (mt : Option String)
    (hp : getPath p root = some node) (hne : p ≠ []) (hnd : (eidsOf root).Nodup) :
    (node.tag = wTag "ins" →
      ∃ A B r₁ r₂,
        wtPieces root = A ++ wtPieces node ++ B ∧
        RedlineEditor.applySingleDecision root fresh node "accept" mt = .ok r₁ ∧
        wtPieces r₁.1 = A ++ wtPieces node ++ B ∧
        countTag (wTag "ins") r₁.1 + 1 = countTag (wTag "ins") root ∧
        RedlineEditor.applySingleDecision root fresh node "reject" mt = .ok r₂ ∧
        wtPieces r₂.1 = A ++ B) ∧
    (node.tag = wTag "del" →
      ∃ A B r₁ r₂,
        wtPieces root = A ++ wtPieces node ++ B ∧
        RedlineEditor.applySingleDecision root fresh node "accept" mt = .ok r₁ ∧
        wtPieces r₁.1 = A ++ B ∧
        countTag (wTag "del") r₁.1 + countTag (wTag "del") node = countTag (wTag "del") root ∧
        RedlineEditor.applySingleDecision root fresh node "reject" mt = .ok r₂ ∧
        wtPieces r₂.1 = A ++ (if RedlineEditor.collectDeletedText node = "" then []
                              else [RedlineEditor.collectDeletedText node]) ++ B) := by
  have hpar := parentE_isSome_of_path p root node hp hne
  obtain ⟨A, B, hsplit, hrepl⟩ := homE_splice wtG p root node hp hne hnd
  constructor
  · intro htag
    obtain ⟨A', B', hsplit', hrepl'⟩ := homE_splice (tagG (wTag "ins")) p root node hp hne hnd
    have hnt : node.tag ≠ wTag "t" := by rw [htag]; decide
    refine ⟨A, B, _, _, hsplit,
      applySingle_ins_accept root fresh node mt htag hpar, ?_, ?_,
      applySingle_ins_reject root fresh node mt htag hpar, ?_⟩
    · show wtPieces (replE node.eid (relabelL fresh node.children).1 root) = _
      unfold wtPieces
      rw [hrepl, homL_relabel wtG wtG_eid_irrel, ← homE_wtG_nonT node hnt]
    · show countTag (wTag "ins") (replE node.eid (relabelL fresh node.children).1 root) + 1 = _
      unfold countTag
      rw [hrepl', homL_relabel (tagG (wTag "ins")) (tagG_eid_irrel _), hsplit',
          homE_tagG_self (wTag "ins") node, if_pos htag]
      simp [List.length_append]
      omega
    · show wtPieces (replE node.eid [] root) = _
      unfold wtPieces
      rw [hrepl, homL_nil]
      simp
  · intro htag
    obtain ⟨A', B', hsplit', hrepl'⟩ := homE_splice (tagG (wTag "del")) p root node hp hne hnd
    refine ⟨A, B, _, _, hsplit,
      applySingle_del_accept root fresh node mt htag hpar, ?_, ?_,
      applySingle_del_reject root fresh node mt htag hpar, ?_⟩
    · show wtPieces (replE node.eid [] root) = _
      unfold wtPieces
      rw [hrepl, homL_nil]
      simp
    · show countTag (wTag "del") (replE node.eid [] root) + countTag (wTag "del") node = _
      unfold countTag
      rw [hrepl', homL_nil, hsplit']
      simp [List.length_append]
      omega
    · by_cases hres : RedlineEditor.collectDeletedText node = ""
      · show wtPieces (if RedlineEditor.collectDeletedText node ≠ "" then _ else (replE node.eid [] root, fresh)).1 = _
        rw [if_neg (by simpa using hres), if_pos hres]
        unfold wtPieces
        rw [hrepl, homL_nil]
      · show wtPieces (if RedlineEditor.collectDeletedText node ≠ "" then _ else (replE node.eid [] root, fresh)).1 = _
        rw [if_pos hres, if_neg hres]
        unfold wtPieces
        rw [hrepl, wtPieces_makeRun]

/-! ### Concrete fixtures -/

/-- Tracked insertion `"45 days"` used by the concrete instances. -/
def docAIns : Elem :=
  .mk 4 (wTag "ins") [(wTag "author", "Alice")] none [
    .mk 5 (wTag "r") [] none [
      .mk 6 (wTag "t") [] (some "45 days") []]]

/-- Tracked deletion `"30 days"` used by the concrete instances. -/
def docADel : Elem :=
  .mk 11 (wTag "del") [] none [
    .mk 12 (wTag "r") [] none [
      .mk 13 (wTag "delText") [] (some "30 days") []]]

/-- A two-paragraph document: paragraph one holds a tracked insertion
anchored to comment id 1 and a tracked deletion, paragraph two is plain
text. -/
def docA : Elem :=
  .mk 0 (wTag "document") [] none [
    .mk 1 (wTag "body") [] none [
      .mk 2 (wTag "p") [] none [
        .mk 3 (wTag "commentRangeStart") [(wTag "id", "1")] none [],
        docAIns,
        .mk 7 (wTag "commentRangeEnd") [(wTag "id", "1")] none [],
        docADel],
      .mk 8 (wTag "p") [] none [
        .mk 9 (wTag "r") [] none [
          .mk 10 (wTag "t") [] (some "Second paragraph.") []]]]]

/-- Witness for C1 at the concrete tree `docA`: its insertion node sits at
path `[0, 0, 1]`, its deletion node at `[0, 0, 3]`. -/
theorem c1_tracked_node_mutation_witness :
    ((∃ A B r₁ r₂,
      wtPieces docA = A ++ wtPieces docAIns ++ B ∧
      RedlineEditor.applySingleDecision docA 100 docAIns "accept" none = .ok r₁ ∧
      wtPieces r₁.1 = A ++ wtPieces docAIns ++ B ∧
      countTag (wTag "ins") r₁.1 + 1 = countTag (wTag "ins") docA ∧
      RedlineEditor.applySingleDecision docA 100 docAIns "reject" none = .ok r₂ ∧
      wtPieces r₂.1 = A ++ B) ∧
     (∃ A B r₁ r₂,
      wtPieces docA = A ++ wtPieces docADel ++ B ∧
      RedlineEditor.applySingleDecision docA 100 docADel "accept" none = .ok r₁ ∧
      wtPieces r₁.1 = A ++ B ∧
      countTag (wTag "del") r₁.1 + countTag (wTag "del") docADel = countTag (wTag "del") docA ∧
      RedlineEditor.applySingleDecision docA 100 docADel "reject" none = .ok r₂ ∧
      wtPieces r₂.1 = A ++ (if RedlineEditor.collectDeletedText docADel = "" then []
                            else [RedlineEditor.collectDeletedText docADel]) ++ B)) :=
  ⟨(c1_tracked_node_mutation docA docAIns [0, 0, 1] 100 none rfl (by decide) (by decide)).1 rfl,
   (c1_tracked_node_mutation docA docADel [0, 0, 3] 100 none rfl (by decide) (by decide)).2 rfl⟩

/-- C7 counterexample: a Modify decision on the resolved deletion
`docADel` with `modified_text` absent does *not* produce "no content":
`_apply_single_decision` falls back to the node's deleted text and emits
a plain run holding `"30 days"`, so the body text gains that text. -/
theorem c7_counterexample_modify_deletion_empty :
    ((RedlineEditor.applySingleDecision docA 100 docADel "modify" none).toOption.map
        (fun r => wtPieces r.1) =
      some ["45 days", "30 days", "Second paragraph."]) ∧
    wtPieces docA = ["45 days", "Second paragraph."] := by
  constructor <;> decide

/-- C7 as amended: for every resolved tracked-deletion node, a Modify
decision computes `rt` as the stripped `modified_text` when that is
non-empty, else the stripped deleted text of the node; it replaces the
node with one plain run holding `rt` when `rt` is nonempty, and produces
no content only when `rt` is empty. -/
theorem c7_modify_deletion_fallback
    (root node : Elem) (p : List Nat) (fresh : Nat) (mt : Option String)
    (hp : getPath p root = some node) (hne : p ≠ []) (hnd : (eidsOf root).Nodup)
    (htag : node.tag = wTag "del") :
    ∃ A B,
      wtPieces root = A ++ wtPieces node ++ B ∧
      ∃ r, RedlineEditor.applySingleDecision root fresh node "modify" mt = .ok r ∧
        wtPieces r.1 = A ++
          (if pyStrip (if mt.getD "" ≠ "" then mt.getD ""
                       else RedlineEditor.collectDeletedText node) = "" then []
           else [pyStrip (if mt.getD "" ≠ "" then mt.getD ""
                          else RedlineEditor.collectDeletedText node)]) ++ B := by
  have hpar := parentE_isSome_of_path p root node hp hne
  obtain ⟨A, B, hsplit, hrepl⟩ := homE_splice wtG p root node hp hne hnd
  refine ⟨A, B, hsplit, ?_⟩
  rw [applySingle_del_modify root fresh node mt htag hpar]
  simp only [ne_eq]
  by_cases h : pyStrip (if mt.getD "" ≠ "" then mt.getD ""
      else RedlineEditor.collectDeletedText node) = ""
  · rw [if_neg (not_not_intro h)]
    refine ⟨_, rfl, ?_⟩
    rw [if_pos h]
    show wtPieces (replE node.eid [] root) = _
    unfold wtPieces
    rw [hrepl, homL_nil]
  · rw [if_pos h]
    refine ⟨_, rfl, ?_⟩
    rw [if_neg h]
    show wtPieces (replE node.eid [(RedlineEditor.makeRun fresh _).1] root) = _
    unfold wtPieces
    rw [hrepl, wtPieces_makeRun]

/-- Witness for the amended C7 at `docA` (deletion at path `[0, 0, 3]`,
`modified_text` absent, so the deleted text `"30 days"` is restored). -/
theorem c7_modify_deletion_fallback_witness :
    ∃ A B,
      wtPieces docA = A ++ wtPieces docADel ++ B ∧
      ∃ r, RedlineEditor.applySingleDecision docA 100 docADel "modify" none = .ok r ∧
        wtPieces r.1 = A ++
          (if pyStrip (if (none : Option String).getD "" ≠ "" then (none : Option String).getD ""
                       else RedlineEditor.collectDeletedText docADel) = "" then []
           else [pyStrip (if (none : Option String).getD "" ≠ "" then (none : Option String).getD ""
                          else RedlineEditor.collectDeletedText docADel)]) ++ B :=
  c7_modify_deletion_fallback docA docADel [0, 0, 3] 100 none rfl (by decide) (by decide) rfl

/-! ### Order facts about score fractions -/

theorem Frac.le_refl (x : Frac) : Frac.le x x = true := by
  simp [Frac.le]

theorem Frac.le_of_lt {x y : Frac} (h : Frac.lt x y = true) : Frac.le x y = true := by
  simp [Frac.lt] at h
  simp [Frac.le]
  omega

theorem Frac.le_of_not_lt {x y : Frac} (h : ¬ Frac.lt x y = true) : Frac.le y x = true := by
  simp [Frac.lt] at h
  simp [Frac.le]
  omega

theorem Frac.le_trans {x y z : Frac} (hy : 0 < y.den)
    (h1 : Frac.le x y = true) (h2 : Frac.le y z = true) : Frac.le x z = true := by
  simp [Frac.le] at h1 h2 ⊢
  have h1' := Nat.mul_le_mul_right z.den h1
  have h2' := Nat.mul_le_mul_right x.den h2
  have : x.num * z.den * y.den ≤ z.num * x.den * y.den := by
    calc x.num * z.den * y.den = x.num * y.den * z.den := by ring
    _ ≤ y.num * x.den * z.den := h1'
    _ = y.num * z.den * x.den := by ring
    _ ≤ z.num * y.den * x.den := h2'
    _ = z.num * x.den * y.den := by ring
  exact Nat.le_of_mul_le_mul_right this hy

theorem similarity_den_pos (a b : String) : 0 < (similarity a b).den := by
  unfold similarity smRatio
  dsimp only []
  split
  · simp
  · split
    next h2 => simp
    next h2 => simpa using Nat.pos_of_ne_zero h2

namespace RedlineEditor

theorem boostedScore_den_pos (n : Elem) (st : String) : 0 < (boostedScore n st).den := by
  unfold boostedScore Frac.pymax
  dsimp only []
  split
  · split
    · exact similarity_den_pos _ _
    · simp
  · exact similarity_den_pos _ _

/-- The boost floor: whenever one normalized text contains the other, the
considered score is at least `0.92`. -/
theorem boostedScore_ge_92 (n : Elem) (st : String)
    (h : pyContains (nodeTextOf n) st ∨ pyContains st (nodeTextOf n)) :
    Frac.le ⟨92, 100⟩ (boostedScore n st) = true := by
  unfold boostedScore Frac.pymax
  dsimp only []
  rw [if_pos h]
  split
  next h2 => exact h2
  next h2 => exact Frac.le_refl _

/-- Generic fact about the scan fold: the running best only grows, its
score's denominator stays positive, and it dominates the considered
score of every scanned node that is not skipped. -/
theorem fold_best_ge (f : Elem → Frac) (hf : ∀ n, 0 < (f n).den) (skip : Elem → Bool) :
    ∀ (ns : List Elem) (acc : Option Elem × Frac),
    0 < acc.2.den →
    0 < (ns.foldl (fun best node =>
        if skip node then best
        else if Frac.lt best.2 (f node) then (some node, f node)
        else best) acc).2.den ∧
    Frac.le acc.2 (ns.foldl (fun best node =>
        if skip node then best
        else if Frac.lt best.2 (f node) then (some node, f node)
        else best) acc).2 = true ∧
    ∀ n ∈ ns, ¬ skip n = true →
      Frac.le (f n) ((ns.foldl (fun best node =>
        if skip node then best
        else if Frac.lt best.2 (f node) then (some node, f node)
        else best) acc).2) = true := by
  intro ns
  induction ns with
  | nil =>
    intro acc hden
    exact ⟨hden, Frac.le_refl _, by intro n hn; cases hn⟩
  | cons n0 ns' ih =>
    intro acc hden
    simp only [List.foldl_cons]
    by_cases ht : skip n0 = true
    · rw [if_pos ht]
      obtain ⟨d, l, m⟩ := ih acc hden
      refine ⟨d, l, ?_⟩
      intro n hn hne
      rcases List.mem_cons.mp hn with h1 | h2
      · exact absurd (h1 ▸ ht) hne
      · exact m n h2 hne
    · rw [if_neg ht]
      by_cases hlt : Frac.lt acc.2 (f n0) = true
      · rw [if_pos hlt]
        obtain ⟨d, l, m⟩ := ih (some n0, f n0) (hf n0)
        refine ⟨d, Frac.le_trans (hf n0) (Frac.le_of_lt hlt) l, ?_⟩
        intro n hn hne
        rcases List.mem_cons.mp hn with h1 | h2
        · subst h1
          exact l
        · exact m n h2 hne
      · rw [if_neg hlt]
        obtain ⟨d, l, m⟩ := ih acc hden
        refine ⟨d, l, ?_⟩
        intro n hn hne
        rcases List.mem_cons.mp hn with h1 | h2
        · subst h1
          exact Frac.le_trans hden (Frac.le_of_not_lt hlt) l
        · exact m n h2 hne

/-- The scan's best score dominates every nonempty-text node's considered
(similarity-with-substring-boost) score. -/
theorem scanBest_dominates (ns : List Elem) (st : String) :
    ∀ n ∈ ns, nodeTextOf n ≠ "" →
      Frac.le (boostedScore n st) (scanBest ns st).2 = true := by
  have h := (fold_best_ge (fun n => boostedScore n st) (fun n => boostedScore_den_pos n st)
    (fun n => nodeTextOf n = "") ns (none, ⟨0, 1⟩) (by simp)).2.2
  intro n hn hne
  simpa [scanBest] using h n hn (by simpa using hne)

end RedlineEditor

/-- C3: node resolution for a redline decision.  (a) with no tracked nodes
nothing resolves; (b) with no (normalized) `source_text` the node at
`source_index` (when in range) is accepted unconditionally; (c) with a
`source_text`, the indexed node is accepted when its normalized text is
nonempty and similar at `0.75` or better; (d) when the indexed check
fails, the全 scan decides: the best-scoring node is returned exactly
when its score reaches the `0.45` floor; (e) the scan considers, for
every nonempty-text node, its similarity boosted to at least `0.92`
under substring containment, and the best score dominates all of them;
(f) a redline decision whose `source_text` resolves to no node (and that
carries no reply note) is skipped with the loop state unchanged, and the
batch continues with the remaining decisions. -/
theorem c3_resolution_thresholds
    (ns : List Elem) (d : RedlineEditor.RedlineDecision)
    (rest : List RedlineEditor.RedlineDecision)
    (tn ap : List Elem) (sp : List (Elem × Nat × Nat)) (hc : Bool)
    (S : RedlineEditor.LoopState) :
    (ns = [] → RedlineEditor.resolveTrackedNode ns d = none) ∧
    (ns ≠ [] → normalizeText (d.source_text.getD "") = "" →
      RedlineEditor.resolveTrackedNode ns d =
        (if 0 ≤ d.source_index ∧ d.source_index < (ns.length : Int)
         then ns[d.source_index.toNat]? else none)) ∧
    (ns ≠ [] → normalizeText (d.source_text.getD "") ≠ "" → ∀ n,
      (if 0 ≤ d.source_index ∧ d.source_index < (ns.length : Int)
       then ns[d.source_index.toNat]? else none) = some n →
      RedlineEditor.nodeTextOf n ≠ "" →
      Frac.le ⟨75, 100⟩ (similarity (RedlineEditor.nodeTextOf n)
        (normalizeText (d.source_text.getD ""))) = true →
      RedlineEditor.resolveTrackedNode ns d = some n) ∧
    (ns ≠ [] → normalizeText (d.source_text.getD "") ≠ "" →
      (∀ n, (if 0 ≤ d.source_index ∧ d.source_index < (ns.length : Int)
             then ns[d.source_index.toNat]? else none) = some n →
        (RedlineEditor.nodeTextOf n = "" ∨
         ¬ Frac.le ⟨75, 100⟩ (similarity (RedlineEditor.nodeTextOf n)
             (normalizeText (d.source_text.getD ""))) = true)) →
      RedlineEditor.resolveTrackedNode ns d =
        (match (RedlineEditor.scanBest ns (normalizeText (d.source_text.getD ""))).1 with
         | some b =>
           if Frac.le ⟨45, 100⟩
               (RedlineEditor.scanBest ns (normalizeText (d.source_text.getD ""))).2 = true
           then some b else none
         | none => none)) ∧
    (∀ n ∈ ns, RedlineEditor.nodeTextOf n ≠ "" →
      Frac.le (RedlineEditor.boostedScore n (normalizeText (d.source_text.getD "")))
        (RedlineEditor.scanBest ns (normalizeText (d.source_text.getD ""))).2 = true ∧
      ((pyContains (RedlineEditor.nodeTextOf n) (normalizeText (d.source_text.getD "")) ∨
        pyContains (normalizeText (d.source_text.getD "")) (RedlineEditor.nodeTextOf n)) →
        Frac.le ⟨92, 100⟩
          (RedlineEditor.boostedScore n (normalizeText (d.source_text.getD ""))) = true)) ∧
    (d.source_type = "redline" →
      strLower (pyStrip d.action) ≠ "reply" →
      pyStrip (d.reply_comment.getD "") = "" →
      RedlineEditor.resolveTrackedNode (tn.map (RedlineEditor.liveOf S.root)) d = none →
      RedlineEditor.processDecision tn ap sp hc S d = .ok S ∧
      RedlineEditor.runBatch tn ap sp hc S (d :: rest) =
        RedlineEditor.runBatch tn ap sp hc S rest) := by
  refine ⟨?_, ?_, ?_, ?_, ?_, ?_⟩
  · intro h
    subst h
    simp [RedlineEditor.resolveTrackedNode]
  · intro hne hst
    unfold RedlineEditor.resolveTrackedNode
    rw [if_neg (by simpa [List.isEmpty_iff] using hne)]
    dsimp only []
    rw [hst]
    rcases hidx : (if 0 ≤ d.source_index ∧ d.source_index < (ns.length : Int)
        then ns[d.source_index.toNat]? else none) with _ | n
    · simp
    · simp
  · intro hne hst n hidx hnt hsim
    unfold RedlineEditor.resolveTrackedNode
    rw [if_neg (by simpa [List.isEmpty_iff] using hne)]
    dsimp only []
    rw [hidx]
    have hcond : normalizeText (d.source_text.getD "") ≠ "" ∧
        RedlineEditor.nodeTextOf n ≠ "" ∧
        Frac.le ⟨75, 100⟩ (similarity (RedlineEditor.nodeTextOf n)
          (normalizeText (d.source_text.getD ""))) = true := ⟨hst, hnt, hsim⟩
    simp only []
    rw [if_pos hcond]
  · intro hne hst hfail
    unfold RedlineEditor.resolveTrackedNode
    rw [if_neg (by simpa [List.isEmpty_iff] using hne)]
    dsimp only []
    rcases hidx : (if 0 ≤ d.source_index ∧ d.source_index < (ns.length : Int)
        then ns[d.source_index.toNat]? else none) with _ | n
    · simp only []
      rw [if_pos hst]
    · have hdis := hfail n hidx
      have hcond : ¬ (normalizeText (d.source_text.getD "") ≠ "" ∧
          RedlineEditor.nodeTextOf n ≠ "" ∧
          Frac.le ⟨75, 100⟩ (similarity (RedlineEditor.nodeTextOf n)
            (normalizeText (d.source_text.getD ""))) = true) := by
        rcases hdis with h1 | h2
        · intro hc2
          exact hc2.2.1 h1
        · intro hc2
          exact h2 hc2.2.2
      simp only []
      rw [if_neg hcond, if_neg hst]
  · intro n hn hnt
    exact ⟨RedlineEditor.scanBest_dominates ns _ n hn hnt,
           fun hsub => RedlineEditor.boostedScore_ge_92 n _ hsub⟩
  · intro hty hrep hnote hres
    have hproc : RedlineEditor.processDecision tn ap sp hc S d = .ok S := by
      unfold RedlineEditor.processDecision
      rw [if_neg (not_not_intro (Or.inl hty))]
      dsimp only []
      rw [if_neg (by rw [hty]; decide)]
      rw [hres, if_neg hrep]
      rw [if_neg (not_not_intro hnote)]
    refine ⟨hproc, ?_⟩
    conv_lhs => rw [RedlineEditor.runBatch]
    rw [hproc]

/-- Decision resolving the indexed insertion by exact text. -/
def c3dGood : RedlineEditor.RedlineDecision :=
  { source_type := "redline", source_index := 0, action := "accept",
    source_text := some "45 days" }

/-- Decision whose `source_text` matches no tracked node above the floor. -/
def c3dBad : RedlineEditor.RedlineDecision :=
  { source_type := "redline", source_index := 0, action := "accept",
    source_text := some "unrelated zz" }

set_option maxRecDepth 4096 in
/-- Witness for C3: in `docA`, an exact-text decision resolves to the
indexed insertion, and a decision below the similarity floor is skipped
while the batch continues. -/
theorem c3_resolution_thresholds_witness :
    RedlineEditor.resolveTrackedNode [docAIns, docADel] c3dGood = some docAIns ∧
    (RedlineEditor.processDecision [docAIns, docADel] [] [] false
        ⟨docA, 100, []⟩ c3dBad = .ok ⟨docA, 100, []⟩ ∧
      RedlineEditor.runBatch [docAIns, docADel] [] [] false
        ⟨docA, 100, []⟩ (c3dBad :: [c3dGood]) =
      RedlineEditor.runBatch [docAIns, docADel] [] [] false
        ⟨docA, 100, []⟩ [c3dGood]) :=
  ⟨(c3_resolution_thresholds [docAIns, docADel] c3dGood [] [] [] [] false
      ⟨docA, 100, []⟩).2.2.1 (List.cons_ne_nil _ _) (by decide) docAIns rfl
      (by decide) (by decide),
   (c3_resolution_thresholds [docAIns, docADel] c3dBad [c3dGood] [docAIns, docADel]
      [] [] false ⟨docA, 100, []⟩).2.2.2.2.2 rfl (by decide) (by decide) rfl⟩

/-! ### Extraction counts and ordering (C4, C5) -/

theorem filterMap_congr_someL {α β : Type} {l : List α} {f : α → Option β} {g : α → β}
    (h : ∀ x ∈ l, f x = some (g x)) : l.filterMap f = l.map g := by
  induction l with
  | nil => rfl
  | cons x xs ih =>
    rw [List.filterMap_cons, h x (List.mem_cons_self _ _), List.map_cons,
        ih (fun y hy => h y (List.mem_cons_of_mem _ hy))]

namespace CorpusParser

/-- The extractor's insertion occurrences: one per `(paragraph, w:ins)`
pair in traversal order (equal to the plain `w:ins` node list when no
paragraph is nested inside another). -/
def insOccurrences (root : Elem) : List Elem :=
  (findAllDesc (fun n => n.tag == wTag "p") root).flatMap
    (findAllDesc (fun n => n.tag == wTag "ins"))

/-- The extractor's deletion occurrences. -/
def delOccurrences (root : Elem) : List Elem :=
  (findAllDesc (fun n => n.tag == wTag "p") root).flatMap
    (findAllDesc (fun n => n.tag == wTag "del"))

/-- The kind/text projection used to compare event lists. -/
def evTT (e : EventR) : String × String := (e.type, e.text)

theorem annotateEventsGo_map_tt (lowered : String) :
    ∀ (cursor : Nat) (evs : List EventR),
    (annotateEventsGo lowered cursor evs).map evTT = evs.map evTT := by
  intro cursor evs
  induction evs generalizing cursor with
  | nil => simp [annotateEventsGo]
  | cons e rest ih =>
    unfold annotateEventsGo
    by_cases h1 : e.position.isSome
    · simp only [if_pos h1, List.map_cons, ih]
    · rw [if_neg h1]
      dsimp only []
      by_cases h2 : pyStrip e.text = ""
      · rw [if_pos h2]
        simp only [List.map_cons, ih]
      · rw [if_neg h2]
        rcases hidx : (match pyFind lowered (strLower (pyStrip e.text)) cursor with
          | some i => some i
          | none => pyFind lowered (strLower (pyStrip e.text)) 0) with _ | i
        · rw [hidx]
          simp only [List.map_cons, ih]
        · rw [hidx]
          simp only [List.map_cons, ih]
          rfl

theorem annotateEvents_map_tt (raw : String) (evs : List EventR) :
    (annotateEvents raw evs).map evTT = evs.map evTT := by
  unfold annotateEvents
  by_cases h : raw = "" ∨ evs = []
  · rw [if_pos h]
  · rw [if_neg h, annotateEventsGo_map_tt]

theorem countP_map_eq_length {α β : Type} {l : List α} {g : α → β} {pr : β → Bool}
    (h : ∀ x ∈ l, pr (g x) = true) : (l.map g).countP pr = l.length := by
  induction l with
  | nil => rfl
  | cons x xs ih =>
    rw [List.map_cons, List.countP_cons, ih (fun y hy => h y (List.mem_cons_of_mem _ hy)),
        h x (List.mem_cons_self _ _)]
    simp

theorem countP_map_eq_zero {α β : Type} {l : List α} {g : α → β} {pr : β → Bool}
    (h : ∀ x ∈ l, pr (g x) = false) : (l.map g).countP pr = 0 := by
  induction l with
  | nil => rfl
  | cons x xs ih =>
    rw [List.map_cons, List.countP_cons, ih (fun y hy => h y (List.mem_cons_of_mem _ hy)),
        h x (List.mem_cons_self _ _)]
    simp

theorem map_filterMap_guard {α β γ : Type} {l : List α} {c : α → Prop}
    [inst : ∀ a, Decidable (c a)] {mk : α → β} {pr : β → γ} {g : α → γ}
    (h : ∀ x ∈ l, ¬ c x) (hpr : ∀ x, pr (mk x) = g x) :
    ((l.filterMap (fun x => if c x then none else some (mk x))).map pr) = l.map g := by
  induction l with
  | nil => rfl
  | cons x xs ih =>
    rw [List.filterMap_cons, if_neg (h x (List.mem_cons_self _ _)), List.map_cons,
        List.map_cons, hpr,
        ih (fun z hz => h z (List.mem_cons_of_mem _ hz))]

/-- With all texts nonempty, a paragraph's events are exactly one
insertion event per `w:ins` followed by one deletion event per `w:del`,
in that order. -/
theorem eventsOfParagraph_map_tt (byId : List (String × String))
    (am : List (Nat × List String)) (p : Elem)
    (hins : ∀ n ∈ findAllDesc (fun n => n.tag == wTag "ins") p, collectText n ≠ "")
    (hdel : ∀ n ∈ findAllDesc (fun n => n.tag == wTag "del") p, collectDeletedText n ≠ "") :
    (eventsOfParagraph byId am p).map evTT =
      (findAllDesc (fun n => n.tag == wTag "ins") p).map
        (fun n => ("insertion", collectText n)) ++
      (findAllDesc (fun n => n.tag == wTag "del") p).map
        (fun n => ("deletion", collectDeletedText n)) := by
  unfold eventsOfParagraph
  dsimp only []
  rw [List.map_append]
  congr 1
  · exact map_filterMap_guard hins (fun x => rfl)
  · exact map_filterMap_guard hdel (fun x => rfl)

/-- The count versions: a paragraph's event list has one event per node,
counted by kind. -/
theorem eventsOfParagraph_counts (byId : List (String × String))
    (am : List (Nat × List String)) (p : Elem)
    (hins : ∀ n ∈ findAllDesc (fun n => n.tag == wTag "ins") p, collectText n ≠ "")
    (hdel : ∀ n ∈ findAllDesc (fun n => n.tag == wTag "del") p, collectDeletedText n ≠ "") :
    (eventsOfParagraph byId am p).length =
      (findAllDesc (fun n => n.tag == wTag "ins") p).length +
      (findAllDesc (fun n => n.tag == wTag "del") p).length ∧
    (eventsOfParagraph byId am p).countP (fun e => e.type == "insertion") =
      (findAllDesc (fun n => n.tag == wTag "ins") p).length ∧
    (eventsOfParagraph byId am p).countP (fun e => e.type == "deletion") =
      (findAllDesc (fun n => n.tag == wTag "del") p).length := by
  have hmap := eventsOfParagraph_map_tt byId am p hins hdel
  have hlen : (eventsOfParagraph byId am p).length =
      (findAllDesc (fun n => n.tag == wTag "ins") p).length +
      (findAllDesc (fun n => n.tag == wTag "del") p).length := by
    have := congrArg List.length hmap
    simpa using this
  refine ⟨hlen, ?_, ?_⟩
  · have := congrArg (List.countP (fun tt : String × String => tt.1 == "insertion")) hmap
    rw [List.countP_map, List.countP_append] at this
    rw [show (List.countP ((fun tt : String × String => tt.1 == "insertion") ∘ evTT)
        (eventsOfParagraph byId am p)) =
        (eventsOfParagraph byId am p).countP (fun e => e.type == "insertion") from rfl] at this
    rw [this, countP_map_eq_length (fun n _ => rfl),
        countP_map_eq_zero (fun n _ => rfl)]
    omega
  · have := congrArg (List.countP (fun tt : String × String => tt.1 == "deletion")) hmap
    rw [List.countP_map, List.countP_append] at this
    rw [show (List.countP ((fun tt : String × String => tt.1 == "deletion") ∘ evTT)
        (eventsOfParagraph byId am p)) =
        (eventsOfParagraph byId am p).countP (fun e => e.type == "deletion") from rfl] at this
    rw [this, countP_map_eq_zero (fun n _ => rfl),
        countP_map_eq_length (fun n _ => rfl)]
    omega

/-- Aggregated over a paragraph list: shape, length and per-kind counts of
the tracked-change events. -/
theorem eventsFlat_counts (byId : List (String × String))
    (am : List (Nat × List String)) :
    ∀ ps : List Elem,
    (∀ p ∈ ps, ∀ n ∈ findAllDesc (fun n => n.tag == wTag "ins") p, collectText n ≠ "") →
    (∀ p ∈ ps, ∀ n ∈ findAllDesc (fun n => n.tag == wTag "del") p, collectDeletedText n ≠ "") →
    (ps.flatMap (eventsOfParagraph byId am)).map evTT =
      ps.flatMap (fun p =>
        (findAllDesc (fun n => n.tag == wTag "ins") p).map
          (fun n => ("insertion", collectText n)) ++
        (findAllDesc (fun n => n.tag == wTag "del") p).map
          (fun n => ("deletion", collectDeletedText n))) ∧
    (ps.flatMap (eventsOfParagraph byId am)).length =
      (ps.flatMap (findAllDesc (fun n => n.tag == wTag "ins"))).length +
      (ps.flatMap (findAllDesc (fun n => n.tag == wTag "del"))).length ∧
    (ps.flatMap (eventsOfParagraph byId am)).countP (fun e => e.type == "insertion") =
      (ps.flatMap (findAllDesc (fun n => n.tag == wTag "ins"))).length ∧
    (ps.flatMap (eventsOfParagraph byId am)).countP (fun e => e.type == "deletion") =
      (ps.flatMap (findAllDesc (fun n => n.tag == wTag "del"))).length := by
  intro ps
  induction ps with
  | nil => intro _ _; exact ⟨rfl, rfl, rfl, rfl⟩
  | cons p ps' ih =>
    intro hins hdel
    obtain ⟨m', l', ci', cd'⟩ := ih
      (fun q hq => hins q (List.mem_cons_of_mem _ hq))
      (fun q hq => hdel q (List.mem_cons_of_mem _ hq))
    have hinsp := hins p (List.mem_cons_self _ _)
    have hdelp := hdel p (List.mem_cons_self _ _)
    obtain ⟨lp, cip, cdp⟩ := eventsOfParagraph_counts byId am p hinsp hdelp
    have hmp := eventsOfParagraph_map_tt byId am p hinsp hdelp
    refine ⟨?_, ?_, ?_, ?_⟩
    · simp only [List.flatMap_cons, List.map_append, hmp, m']
    · simp only [List.flatMap_cons, List.length_append, lp, l']
      omega
    · simp only [List.flatMap_cons, List.countP_append, cip, ci', List.length_append]
    · simp only [List.flatMap_cons, List.countP_append, cdp, cd', List.length_append]

/-- C4 core, stated for an arbitrary comment map, active map, range map
and raw text (the extraction pipeline instantiates them). -/
theorem c4_general (root : Elem) (byId : List (String × String))
    (am : List (Nat × List String)) (ranges : List (String × String)) (raw : String)
    (hins : ∀ n ∈ insOccurrences root, collectText n ≠ "")
    (hdel : ∀ n ∈ delOccurrences root, collectDeletedText n ≠ "")
    (hne : insOccurrences root ≠ [] ∨ delOccurrences root ≠ [] ∨ ranges = []) :
    (annotateEvents raw
        (if redlineEventsRaw byId am root = [] ∧ ranges ≠ []
         then rangeFallbackEvents byId ranges
         else redlineEventsRaw byId am root)).map evTT =
      (findAllDesc (fun n => n.tag == wTag "p") root).flatMap (fun p =>
        (findAllDesc (fun n => n.tag == wTag "ins") p).map
          (fun n => ("insertion", collectText n)) ++
        (findAllDesc (fun n => n.tag == wTag "del") p).map
          (fun n => ("deletion", collectDeletedText n))) ∧
    (annotateEvents raw
        (if redlineEventsRaw byId am root = [] ∧ ranges ≠ []
         then rangeFallbackEvents byId ranges
         else redlineEventsRaw byId am root)).length =
      (insOccurrences root).length + (delOccurrences root).length ∧
    (annotateEvents raw
        (if redlineEventsRaw byId am root = [] ∧ ranges ≠ []
         then rangeFallbackEvents byId ranges
         else redlineEventsRaw byId am root)).countP (fun e => e.type == "insertion") =
      (insOccurrences root).length ∧
    (annotateEvents raw
        (if redlineEventsRaw byId am root = [] ∧ ranges ≠ []
         then rangeFallbackEvents byId ranges
         else redlineEventsRaw byId am root)).countP (fun e => e.type == "deletion") =
      (delOccurrences root).length := by
  have hps : ∀ p ∈ findAllDesc (fun n => n.tag == wTag "p") root,
      ∀ n ∈ findAllDesc (fun n => n.tag == wTag "ins") p, collectText n ≠ "" := by
    intro p hp n hn
    exact hins n (List.mem_flatMap.mpr ⟨p, hp, hn⟩)
  have hpd : ∀ p ∈ findAllDesc (fun n => n.tag == wTag "p") root,
      ∀ n ∈ findAllDesc (fun n => n.tag == wTag "del") p, collectDeletedText n ≠ "" := by
    intro p hp n hn
    exact hdel n (List.mem_flatMap.mpr ⟨p, hp, hn⟩)
  obtain ⟨hm, hl, hci, hcd⟩ :=
    eventsFlat_counts byId am (findAllDesc (fun n => n.tag == wTag "p") root) hps hpd
  have hraw : redlineEventsRaw byId am root =
      (findAllDesc (fun n => n.tag == wTag "p") root).flatMap (eventsOfParagraph byId am) := rfl
  have hif : ¬ (redlineEventsRaw byId am root = [] ∧ ranges ≠ []) := by
    rintro ⟨hz, hr⟩
    rcases hne with h1 | h1 | h1
    · have : (redlineEventsRaw byId am root).length = 0 := by rw [hz]; rfl
      rw [hraw, hl] at this
      have := List.length_pos.mpr h1
      unfold insOccurrences at this
      omega
    · have : (redlineEventsRaw byId am root).length = 0 := by rw [hz]; rfl
      rw [hraw, hl] at this
      have := List.length_pos.mpr h1
      unfold delOccurrences at this
      omega
    · exact hr h1
  rw [if_neg hif]
  have hmap : (annotateEvents raw (redlineEventsRaw byId am root)).map evTT =
      (redlineEventsRaw byId am root).map evTT := annotateEvents_map_tt _ _
  have hlen : (annotateEvents raw (redlineEventsRaw byId am root)).length =
      (redlineEventsRaw byId am root).length := by
    have := congrArg List.length hmap
    simpa using this
  have hcp : ∀ k : String,
      (annotateEvents raw (redlineEventsRaw byId am root)).countP (fun e => e.type == k) =
      (redlineEventsRaw byId am root).countP (fun e => e.type == k) := by
    intro k
    have := congrArg (List.countP (fun tt : String × String => tt.1 == k)) hmap
    rw [List.countP_map, List.countP_map] at this
    exact this
  refine ⟨?_, ?_, ?_, ?_⟩
  · rw [hmap, hraw, hm]
  · rw [hlen, hraw, hl]; rfl
  · rw [hcp, hraw, hci]; rfl
  · rw [hcp, hraw, hcd]; rfl

/-- C4 (amended): for every document tree in which every traversed
insertion occurrence has nonempty text and every deletion occurrence has
nonempty deleted text — and at least one such occurrence exists (or the
document has no comment-range texts, so the synthetic fallback stays
off) — extraction returns exactly `N + M` redline events, `N` of kind
`insertion` and `M` of kind `deletion`, where `N`/`M` count the
`(paragraph, node)` occurrences in traversal order; the events list is
exactly: per paragraph, one insertion event per `w:ins` (its text) then
one deletion event per `w:del` (its deleted text). -/
theorem c4_extraction_event_counts (root : Elem) (parts : List (Option Elem))
    (people : Option Elem)
    (hins : ∀ n ∈ insOccurrences root, collectText n ≠ "")
    (hdel : ∀ n ∈ delOccurrences root, collectDeletedText n ≠ "")
    (hne : insOccurrences root ≠ [] ∨ delOccurrences root ≠ [] ∨
      collectCommentRangeTexts root = []) :
    (parseDocxFromTrees root parts people).redline_events.map evTT =
      (findAllDesc (fun n => n.tag == wTag "p") root).flatMap (fun p =>
        (findAllDesc (fun n => n.tag == wTag "ins") p).map
          (fun n => ("insertion", collectText n)) ++
        (findAllDesc (fun n => n.tag == wTag "del") p).map
          (fun n => ("deletion", collectDeletedText n))) ∧
    (parseDocxFromTrees root parts people).redline_events.length =
      (insOccurrences root).length + (delOccurrences root).length ∧
    (parseDocxFromTrees root parts people).redline_events.countP
        (fun e => e.type == "insertion") = (insOccurrences root).length ∧
    (parseDocxFromTrees root parts people).redline_events.countP
        (fun e => e.type == "deletion") = (delOccurrences root).length := by
  unfold parseDocxFromTrees
  dsimp only []
  exact c4_general root _ _ _ _ hins hdel hne

end CorpusParser

/-- Witness for C4 at `docA` (one insertion and one deletion occurrence,
both with nonempty text). -/
theorem c4_extraction_event_counts_witness :
    (CorpusParser.parseDocxFromTrees docA [] none).redline_events.map CorpusParser.evTT =
      (findAllDesc (fun n => n.tag == wTag "p") docA).flatMap (fun p =>
        (findAllDesc (fun n => n.tag == wTag "ins") p).map
          (fun n => ("insertion", CorpusParser.collectText n)) ++
        (findAllDesc (fun n => n.tag == wTag "del") p).map
          (fun n => ("deletion", CorpusParser.collectDeletedText n))) ∧
    (CorpusParser.parseDocxFromTrees docA [] none).redline_events.length =
      (CorpusParser.insOccurrences docA).length + (CorpusParser.delOccurrences docA).length ∧
    (CorpusParser.parseDocxFromTrees docA [] none).redline_events.countP
        (fun e => e.type == "insertion") = (CorpusParser.insOccurrences docA).length ∧
    (CorpusParser.parseDocxFromTrees docA [] none).redline_events.countP
        (fun e => e.type == "deletion") = (CorpusParser.delOccurrences docA).length :=
  CorpusParser.c4_extraction_event_counts docA [] none (by decide) (by decide)
    (Or.inl (fun h => absurd (congrArg List.length h) (by decide)))

/-- A document whose only tracked insertion has empty text. -/
def docB : Elem :=
  .mk 0 (wTag "document") [] none [
    .mk 1 (wTag "body") [] none [
      .mk 2 (wTag "p") [] none [
        .mk 3 (wTag "ins") [] none [
          .mk 4 (wTag "r") [] none [
            .mk 5 (wTag "t") [] (some "") []]],
        .mk 6 (wTag "r") [] none [
          .mk 7 (wTag "t") [] (some "kept text") []]]]]

/-- C4 counterexample: `docB` contains one tracked-insertion node and no
deletion node, yet extraction reports zero redline events (the
empty-text insertion is skipped), so the count `N + M = 1` fails. -/
theorem c4_counterexample_empty_insertion :
    (CorpusParser.parseDocxFromTrees docB [] none).redline_events.length = 0 ∧
    countTag (wTag "ins") docB = 1 ∧ countTag (wTag "del") docB = 0 := by
  refine ⟨?_, ?_, ?_⟩ <;> decide

theorem flatMap_congr_mem {α β : Type} {l : List α} {f g : α → List β}
    (h : ∀ x ∈ l, f x = g x) : l.flatMap f = l.flatMap g := by
  induction l with
  | nil => rfl
  | cons x xs ih =>
    rw [List.flatMap_cons, List.flatMap_cons, h x (List.mem_cons_self _ _),
        ih (fun y hy => h y (List.mem_cons_of_mem _ hy))]

/-- C5 (amended): when every traversed tracked node has nonempty text (and
at least one exists, or no comment ranges), the Mutator's tracked-node
collection lines up one-to-one, in order, with the Extractor's redline
events: the k-th tracked node has the k-th event's kind and text. -/
theorem c5_tracked_node_event_alignment (root : Elem) (parts : List (Option Elem))
    (people : Option Elem)
    (hins : ∀ n ∈ CorpusParser.insOccurrences root, CorpusParser.collectText n ≠ "")
    (hdel : ∀ n ∈ CorpusParser.delOccurrences root, CorpusParser.collectDeletedText n ≠ "")
    (hne : CorpusParser.insOccurrences root ≠ [] ∨ CorpusParser.delOccurrences root ≠ [] ∨
      CorpusParser.collectCommentRangeTexts root = []) :
    (CorpusParser.parseDocxFromTrees root parts people).redline_events.map CorpusParser.evTT =
      (RedlineEditor.collectTrackedNodes root).map (fun n =>
        (if n.tag == wTag "ins" then "insertion" else "deletion",
         if n.tag == wTag "ins" then RedlineEditor.collectText n
         else RedlineEditor.collectDeletedText n)) := by
  rw [(CorpusParser.c4_extraction_event_counts root parts people hins hdel hne).1]
  unfold RedlineEditor.collectTrackedNodes
  rw [List.map_flatMap]
  refine flatMap_congr_mem ?_
  intro p hp
  rw [List.map_append]
  congr 1
  · refine (List.map_congr_left ?_).symm
    intro n hn
    have hpred := (List.mem_filter.mp hn).2
    have htag : (n.tag == wTag "ins") = true := hpred
    rw [if_pos htag, if_pos htag]
    rfl
  · refine (List.map_congr_left ?_).symm
    intro n hn
    have hpred := (List.mem_filter.mp hn).2
    have htag : n.tag = wTag "del" := by simpa using hpred
    have hne2 : (n.tag == wTag "ins") = false := by
      rw [htag]
      decide
    rw [if_neg (by simp [hne2]), if_neg (by simp [hne2])]
    rfl

/-- Witness for C5 at `docA`. -/
theorem c5_tracked_node_event_alignment_witness :
    (CorpusParser.parseDocxFromTrees docA [] none).redline_events.map CorpusParser.evTT =
      (RedlineEditor.collectTrackedNodes docA).map (fun n =>
        (if n.tag == wTag "ins" then "insertion" else "deletion",
         if n.tag == wTag "ins" then RedlineEditor.collectText n
         else RedlineEditor.collectDeletedText n)) :=
  c5_tracked_node_event_alignment docA [] none (by decide) (by decide)
    (Or.inl (fun h => absurd (congrArg List.length h) (by decide)))

/-- A paragraph holding an empty-text tracked insertion followed by a
nonempty tracked deletion. -/
def docC : Elem :=
  .mk 0 (wTag "document") [] none [
    .mk 1 (wTag "body") [] none [
      .mk 2 (wTag "p") [] none [
        .mk 3 (wTag "ins") [] none [
          .mk 4 (wTag "r") [] none [
            .mk 5 (wTag "t") [] (some "") []]],
        .mk 6 (wTag "del") [] none [
          .mk 7 (wTag "r") [] none [
            .mk 8 (wTag "delText") [] (some "gone") []]]]]]

/-- C5 counterexample: in `docC` the Mutator's tracked-node list is
`[w:ins, w:del]` but the Extractor's events are just `[deletion]` (the
empty-text insertion produces no event), so the k-th tracked node does
not correspond to the k-th event at `k = 0`. -/
theorem c5_counterexample_empty_text_node :
    (CorpusParser.parseDocxFromTrees docC [] none).redline_events.map (fun e => e.type) =
      ["deletion"] ∧
    (RedlineEditor.collectTrackedNodes docC).map (fun n => RedlineEditor.localName n.tag) =
      ["ins", "del"] := by
  constructor <;> decide

/-- The comments part matching `docA`: one comment, id 1, body "too long". -/
def commentsA : Elem :=
  .mk 100 (wTag "comments") [] none [
    .mk 101 (wTag "comment") [(wTag "id", "1"), (wTag "author", "Bob")] none [
      .mk 102 (wTag "p") [] none [
        .mk 103 (wTag "r") [] none [
          .mk 104 (wTag "t") [] (some "too long") []]]]]

/-- A package holding `docA`, a parseable comments part and an untouched
third part. -/
def pkgA : List RedlineEditor.ZipItem :=
  [⟨"word/document.xml", "DOCBYTES", some docA⟩,
   ⟨"word/comments.xml", "COMBYTES", some commentsA⟩,
   ⟨"word/styles.xml", "STYLEBYTES", none⟩]

/-- C6 counterexample: applying an empty decision list does not return a
byte buffer at all — `apply_decisions` raises
`ValueError("No redline decisions provided")`. -/
theorem c6_counterexample_empty_decisions :
    RedlineEditor.applyDecisions "2025-01-01T00:00:00+00:00" "contract.docx" pkgA [] =
      .error "No redline decisions provided" := rfl

namespace RedlineEditor

theorem runBatch_skips_inapplicable (tn ap : List Elem) (sp : List (Elem × Nat × Nat))
    (hc : Bool) (st : LoopState) :
    ∀ ds : List RedlineDecision,
    (∀ d ∈ ds, d.source_type ≠ "redline" ∧ d.source_type ≠ "comment") →
    runBatch tn ap sp hc st ds = .ok st := by
  intro ds
  induction ds with
  | nil => intro _; rfl
  | cons d ds' ih =>
    intro hall
    have hd := hall d (List.mem_cons_self _ _)
    have hproc : processDecision tn ap sp hc st d = .ok st := by
      unfold processDecision
      rw [if_pos (by rintro (h | h) <;> [exact hd.1 h; exact hd.2 h])]
    conv_lhs => rw [runBatch]
    rw [hproc]
    exact ih (fun x hx => hall x (List.mem_cons_of_mem _ hx))

/-- C6 (amended): an empty decision list is rejected with
`"No redline decisions provided"` (see the counterexample); а batch
containing only inapplicable decisions (unrecognised `source_type`)
leaves the document tree and every parsed comment part tree unchanged,
so re-extracting the document part yields exactly the same `raw_text`,
redline events and comments as the original. -/
theorem c6_noop_batch (now fileName : String) (pkg : List ZipItem)
    (decisions : List RedlineDecision) (it : ZipItem) (root : Elem)
    (hsuf : strLower (pathSuffix fileName) = ".docx")
    (hds : decisions ≠ [])
    (hall : ∀ d ∈ decisions, d.source_type ≠ "redline" ∧ d.source_type ≠ "comment")
    (hdoc : zipLookup pkg "word/document.xml" = some it)
    (hparsed : it.parsed = some root) :
    runPipeline now fileName pkg decisions = .ok (root, parsedCommentParts pkg) ∧
    ∀ (parts : List (Option Elem)) (people : Option Elem),
      ∀ r cts, runPipeline now fileName pkg decisions = .ok (r, cts) →
        CorpusParser.parseDocxFromTrees r parts people =
        CorpusParser.parseDocxFromTrees root parts people := by
  have hrun : runPipeline now fileName pkg decisions = .ok (root, parsedCommentParts pkg) := by
    unfold runPipeline
    rw [if_neg (by rw [hsuf]; intro h; exact h rfl)]
    rw [if_neg (by simpa [List.isEmpty_iff] using hds)]
    rw [hdoc]
    dsimp only []
    rw [hparsed]
    dsimp only []
    rw [runBatch_skips_inapplicable _ _ _ _ _ decisions hall]
    rfl
  refine ⟨hrun, ?_⟩
  intro parts people r cts h
  rw [hrun] at h
  cases h
  rfl

end RedlineEditor

/-- Witness for the amended C6: a one-decision batch whose decision has an
unrecognised `source_type` leaves `docA` untouched in `pkgA`. -/
theorem c6_noop_batch_witness :
    RedlineEditor.runPipeline "T" "contract.docx" pkgA
        [{ source_type := "other", source_index := 0, action := "accept" }] =
      .ok (docA, RedlineEditor.parsedCommentParts pkgA) ∧
    ∀ (parts : List (Option Elem)) (people : Option Elem),
      ∀ r cts, RedlineEditor.runPipeline "T" "contract.docx" pkgA
          [{ source_type := "other", source_index := 0, action := "accept" }] = .ok (r, cts) →
        CorpusParser.parseDocxFromTrees r parts people =
        CorpusParser.parseDocxFromTrees docA parts people :=
  RedlineEditor.c6_noop_batch "T" "contract.docx" pkgA _ _ docA (by decide)
    (List.cons_ne_nil _ _) (by decide) rfl rfl

namespace RedlineEditor

theorem processDecision_pending_of_no_reply (tn ap : List Elem)
    (sp : List (Elem × Nat × Nat)) (hc : Bool) (st : LoopState)
    (d : RedlineDecision) (hrc : pyStrip (d.reply_comment.getD "") = "") :
    ∀ st', processDecision tn ap sp hc st d = .ok st' → st'.pending = st.pending := by
  intro st' h
  unfold processDecision at h
  by_cases h0 : ¬ (d.source_type = "redline" ∨ d.source_type = "comment")
  · rw [if_pos h0] at h; cases h; rfl
  · rw [if_neg h0] at h
    dsimp only [] at h
    by_cases hcm : d.source_type = "comment"
    · rw [if_pos hcm, if_pos hrc] at h
      cases h; rfl
    · rw [if_neg hcm] at h
      by_cases hna : strLower (pyStrip d.action) = "reply"
      · rw [if_pos hna, if_pos hrc] at h
        cases h; rfl
      · rw [if_neg hna] at h
        rcases hnode : resolveTrackedNode (tn.map (liveOf st.root)) d with _ | n
        · rw [hnode] at h
          rw [if_neg (not_not_intro hrc)] at h
          cases h; rfl
        · rw [hnode] at h
          dsimp only [] at h
          rcases happ : applySingleDecision st.root st.fresh n d.action d.modified_text
              with msg | res
          · rw [happ] at h; cases h
          · rw [happ] at h
            rcases hpar : findAncestor st.root n.eid "p" with _ | p
            · rw [hpar] at h
              cases h; rfl
            · rw [hpar] at h
              rcases hrcq : d.reply_comment with _ | rc
              · rw [hrcq] at h
                cases h; rfl
              · rw [hrcq] at h
                rw [hrcq] at hrc
                simp only [Option.getD_some] at hrc
                dsimp only [] at h
                rw [if_neg (fun hx => hx.2 hrc)] at h
                cases h; rfl

theorem runBatch_pending_of_no_replies (tn ap : List Elem)
    (sp : List (Elem × Nat × Nat)) (hc : Bool) :
    ∀ (ds : List RedlineDecision) (st : LoopState),
    (∀ d ∈ ds, pyStrip (d.reply_comment.getD "") = "") →
    ∀ st', runBatch tn ap sp hc st ds = .ok st' → st'.pending = st.pending := by
  intro ds
  induction ds with
  | nil =>
    intro st _ st' h
    simp only [runBatch] at h
    cases h; rfl
  | cons d ds' ih =>
    intro st hall st' h
    rw [runBatch] at h
    rcases hpd : processDecision tn ap sp hc st d with e | st1
    · rw [hpd] at h; cases h
    · rw [hpd] at h
      have h1 : st1.pending = st.pending :=
        processDecision_pending_of_no_reply tn ap sp hc st d
          (hall d (List.mem_cons_self _ _)) st1 hpd
      have h2 : st'.pending = st1.pending :=
        ih st1 (fun x hx => hall x (List.mem_cons_of_mem _ hx)) st' h
      rw [h2, h1]

theorem runPipeline_now_irrel (now₁ now₂ fileName : String) (pkg : List ZipItem)
    (decisions : List RedlineDecision)
    (hall : ∀ d ∈ decisions, pyStrip (d.reply_comment.getD "") = "") :
    runPipeline now₁ fileName pkg decisions = runPipeline now₂ fileName pkg decisions := by
  unfold runPipeline
  by_cases h1 : strLower (pathSuffix fileName) ≠ ".docx"
  · rw [if_pos h1, if_pos h1]
  · rw [if_neg h1, if_neg h1]
    by_cases h2 : decisions.isEmpty
    · rw [if_pos h2, if_pos h2]
    · rw [if_neg h2, if_neg h2]
      cases hdoc : zipLookup pkg "word/document.xml" with
      | none => rfl
      | some docItem =>
        dsimp only []
        cases hp : docItem.parsed with
        | none => rfl
        | some root =>
          dsimp only []
          split
          · rfl
          · rename_i st heq
            have hpend : st.pending = [] :=
              runBatch_pending_of_no_replies _ _ _ _ decisions _ hall st heq
            rw [hpend]
            rfl

/-- C9 (amended): the batch is processed sequentially in decision-list
order against the pre-batch node snapshots, and the output is a pure
function of the file name, the package, the decisions AND the clock
reading `now` taken at invocation time; whenever no decision carries a
nonempty reply note the output is independent of the clock, so two
invocations agree. (With a reply note the clock value is embedded in the
new comment's `w:date` attribute — see the counterexample.) -/
theorem c9_determinism (now₁ now₂ fileName : String) (pkg : List ZipItem)
    (decisions : List RedlineDecision)
    (hall : ∀ d ∈ decisions, pyStrip (d.reply_comment.getD "") = "") :
    applyDecisions now₁ fileName pkg decisions =
      applyDecisions now₂ fileName pkg decisions := by
  unfold applyDecisions
  rw [runPipeline_now_irrel now₁ now₂ fileName pkg decisions hall]

end RedlineEditor

/-- Witness for the amended C9: a reply-free accept decision gives the
same bytes under two different clock readings. -/
theorem c9_determinism_witness :
    (∀ d ∈ [c3dGood], pyStrip (d.reply_comment.getD "") = "") ∧
    RedlineEditor.applyDecisions "2025-01-01T00:00:00+00:00" "contract.docx" pkgA [c3dGood] =
      RedlineEditor.applyDecisions "2025-06-30T12:00:00+00:00" "contract.docx" pkgA [c3dGood] :=
  ⟨by decide,
   RedlineEditor.c9_determinism "2025-01-01T00:00:00+00:00" "2025-06-30T12:00:00+00:00"
     "contract.docx" pkgA [c3dGood] (by decide)⟩

/-- A decision adding one reply note to comment 1. -/
def c9dReply : RedlineEditor.RedlineDecision :=
  { source_type := "comment", source_index := 0, action := "reply",
    source_comment_id := some "1", reply_comment := some "Please reconsider" }

set_option maxRecDepth 4096 in
/-- C9 counterexample: the same file name, package and decision list run
at two different clock readings give different output bytes — already the
`word/comments.xml` entry differs, because the reply comment's `w:date`
attribute holds the invocation-time `datetime.now(...).isoformat()`. -/
theorem c9_counterexample_clock_dependent :
    (RedlineEditor.applyDecisions "2025-01-01T00:00:00+00:00" "contract.docx" pkgA
        [c9dReply]).toOption.map
      (fun out => alGet out "word/comments.xml") ≠
    (RedlineEditor.applyDecisions "2025-06-30T12:00:00+00:00" "contract.docx" pkgA
        [c9dReply]).toOption.map
      (fun out => alGet out "word/comments.xml") := by decide

namespace RedlineEditor

theorem applyReplies_fold_aux (now : String) :
    ∀ (replies : List (Nat × String × List String)) (dr cr : Elem) (fr : Nat) (ctr : Int),
    ∃ news,
      (replies.foldl
        (fun (acc : Elem × Elem × Nat × Int) reply =>
          let pid := firstMatchingCommentId acc.2.1 reply.2.2
          let mc := makeCommentNode acc.2.2.1 acc.2.2.2 reply.2.1 now "Nego User" pid
          let cr := acc.2.1
          let cr' := Elem.mk cr.eid cr.tag cr.attrs cr.text (cr.children ++ [mc.1])
          let refs := commentRefNodes mc.2 acc.2.2.2
          (appendE reply.1 refs.1 acc.1, cr', refs.2, acc.2.2.2 + 1))
        (dr, cr, fr, ctr)).2.1 =
        Elem.mk cr.eid cr.tag cr.attrs cr.text (cr.children ++ news) ∧
      ∀ i (hi : i < news.length), (news.get ⟨i, hi⟩).tag = wTag "comment" ∧
        attrGet (news.get ⟨i, hi⟩) (wTag "id") = some (toString (ctr + (i : Int))) := by
  intro replies
  induction replies with
  | nil =>
    intro dr cr fr ctr
    refine ⟨[], ?_, ?_⟩
    · cases cr
      simp [Elem.eid, Elem.tag, Elem.attrs, Elem.text, Elem.children]
    · intro i hi; exact absurd hi (by simp)
  | cons rep reps ih =>
    intro dr cr fr ctr
    rw [List.foldl_cons]
    dsimp only []
    obtain ⟨news', h1, h2⟩ := ih
      (appendE rep.1 (commentRefNodes
        (makeCommentNode fr ctr rep.2.1 now "Nego User"
          (firstMatchingCommentId cr rep.2.2)).2 ctr).1 dr)
      (Elem.mk cr.eid cr.tag cr.attrs cr.text (cr.children ++
        [(makeCommentNode fr ctr rep.2.1 now "Nego User"
          (firstMatchingCommentId cr rep.2.2)).1]))
      (commentRefNodes
        (makeCommentNode fr ctr rep.2.1 now "Nego User"
          (firstMatchingCommentId cr rep.2.2)).2 ctr).2
      (ctr + 1)
    refine ⟨(makeCommentNode fr ctr rep.2.1 now "Nego User"
        (firstMatchingCommentId cr rep.2.2)).1 :: news', ?_, ?_⟩
    · rw [h1]
      simp [Elem.eid, Elem.tag, Elem.attrs, Elem.text, Elem.children, List.append_assoc]
    · intro i hi
      cases i with
      | zero =>
        constructor
        · rfl
        · show attrGet (makeCommentNode fr ctr rep.2.1 now "Nego User"
              (firstMatchingCommentId cr rep.2.2)).1 (wTag "id") =
            some (toString (ctr + ((0 : Nat) : Int)))
          have h0 : ctr + ((0 : Nat) : Int) = ctr := by simp
          rw [h0]
          rfl
      | succ j =>
        have hj : j < news'.length := by
          simpa using Nat.lt_of_succ_lt_succ hi
        have h3 := h2 j hj
        have hget : ((makeCommentNode fr ctr rep.2.1 now "Nego User"
            (firstMatchingCommentId cr rep.2.2)).1 :: news').get ⟨j + 1, hi⟩ =
            news'.get ⟨j, hj⟩ := rfl
        rw [hget]
        refine ⟨h3.1, ?_⟩
        rw [h3.2]
        have harith : ctr + 1 + (j : Int) = ctr + ((j + 1 : Nat) : Int) := by
          push_cast
          ring
        rw [harith]

theorem applyReplies_comments_shape (docRoot cr : Elem) (fresh : Nat) (now : String)
    (replies : List (Nat × String × List String)) :
    ∃ news, (applyRepliesAsDocxComments docRoot cr fresh now replies).2.1 =
        Elem.mk cr.eid cr.tag cr.attrs cr.text (cr.children ++ news) ∧
      ∀ i (hi : i < news.length), (news.get ⟨i, hi⟩).tag = wTag "comment" ∧
        attrGet (news.get ⟨i, hi⟩) (wTag "id") =
          some (toString (nextCommentId cr + (i : Int))) := by
  unfold applyRepliesAsDocxComments
  exact applyReplies_fold_aux now replies docRoot cr fresh (nextCommentId cr)

/-- C10: whenever the pipeline succeeds, the comment parts other than the
first parsed one are returned unchanged; the first parsed part is the
original tree with some list of new `w:comment` nodes appended at the end
of its children, and the i-th new node's `w:id` is
`_next_comment_id` of that first part alone plus i (one past the largest
int-parseable id of the first part, 0 when it has none, ignoring ids in
every other comment part). -/
theorem c10_reply_comment_allocation (now fileName : String) (pkg : List ZipItem)
    (decisions : List RedlineDecision) (r : Elem) (cts : List (String × Elem))
    (h : runPipeline now fileName pkg decisions = .ok (r, cts)) :
    cts.tail = (parsedCommentParts pkg).tail ∧
    ∀ n0 t0 rest, parsedCommentParts pkg = (n0, t0) :: rest →
      ∃ news, cts = (n0, Elem.mk t0.eid t0.tag t0.attrs t0.text
          (t0.children ++ news)) :: rest ∧
        ∀ i (hi : i < news.length), (news.get ⟨i, hi⟩).tag = wTag "comment" ∧
          attrGet (news.get ⟨i, hi⟩) (wTag "id") =
            some (toString (nextCommentId t0 + (i : Int))) := by
  unfold runPipeline at h
  split at h
  · cases h
  · split at h
    · cases h
    · split at h
      · cases h
      · rename_i docItem heqdoc
        split at h
        · cases h
        · rename_i root heqp
          dsimp only [] at h
          split at h
          · cases h
          · rename_i st heqrb
            split at h
            · cases h
              refine ⟨rfl, ?_⟩
              intro n0 t0 rest heq
              refine ⟨[], ?_, ?_⟩
              · rw [heq]
                cases t0
                simp [Elem.eid, Elem.tag, Elem.attrs, Elem.text, Elem.children]
              · intro i hi; exact absurd hi (by simp)
            · split at h
              · rename_i heqparts
                cases h
                rw [heqparts]
                refine ⟨rfl, ?_⟩
                intro n0 t0 rest heq
                cases heq
              · rename_i n0 t0 rest heqparts
                cases h
                obtain ⟨news, h1, h2⟩ :=
                  applyReplies_comments_shape st.root t0 st.fresh now st.pending
                refine ⟨by rw [heqparts]; rfl, ?_⟩
                intro n0' t0' rest' heq'
                rw [heqparts] at heq'
                injection heq' with hpair hrest
                injection hpair with hn ht
                subst hn; subst ht; subst hrest
                exact ⟨news, by rw [h1], h2⟩

end RedlineEditor

/-- Witness for C10: an inapplicable decision leaves the comment parts of
`pkgA` unchanged (empty appended list), and `_next_comment_id` of the
first part `commentsA` is 2 = 1 + its largest parseable id. -/
theorem c10_reply_comment_allocation_witness :
    ((RedlineEditor.parsedCommentParts pkgA).tail =
        (RedlineEditor.parsedCommentParts pkgA).tail ∧
      ∀ (n0 : String) (t0 : Elem) (rest : List (String × Elem)),
        RedlineEditor.parsedCommentParts pkgA = (n0, t0) :: rest →
        ∃ news,
          RedlineEditor.parsedCommentParts pkgA =
            (n0, Elem.mk t0.eid t0.tag t0.attrs t0.text (t0.children ++ news)) :: rest ∧
          ∀ i (hi : i < news.length), ((news.get ⟨i, hi⟩).tag = wTag "comment" ∧
            attrGet (news.get ⟨i, hi⟩) (wTag "id") =
              some (toString (RedlineEditor.nextCommentId t0 + (i : Int))))) ∧
    RedlineEditor.nextCommentId commentsA = 2 :=
  ⟨RedlineEditor.c10_reply_comment_allocation "T" "contract.docx" pkgA
      [{ source_type := "other", source_index := 0, action := "accept" }] docA
      (RedlineEditor.parsedCommentParts pkgA) rfl,
    by decide⟩

namespace RedlineEditor

theorem runPipeline_cts_names (now fileName : String) (pkg : List ZipItem)
    (decisions : List RedlineDecision) (r : Elem) (cts : List (String × Elem))
    (h : runPipeline now fileName pkg decisions = .ok (r, cts)) :
    cts.map Prod.fst = (parsedCommentParts pkg).map Prod.fst := by
  unfold runPipeline at h
  split at h
  · cases h
  · split at h
    · cases h
    · split at h
      · cases h
      · rename_i docItem heqdoc
        split at h
        · cases h
        · rename_i root heqp
          dsimp only [] at h
          split at h
          · cases h
          · rename_i st heqrb
            split at h
            · cases h; rfl
            · split at h
              · rename_i heqparts
                cases h
                rw [heqparts]
              · rename_i n0 t0 rest heqparts
                cases h
                rw [heqparts]
                rfl

/-- C2 (amended): on every successful run the output has one entry per
input part, in order, with the same names; `word/document.xml` is always
rewritten to the serialization of the final document tree; every part
whose name carries no final comment tree — i.e. every part other than
`word/document.xml` and the successfully PARSED comment parts — is copied
byte-for-byte; and a parsed comment part is always re-serialized, whether
or not it received new entries (see the counterexample). -/
theorem c2_frame (now fileName : String) (pkg : List ZipItem)
    (decisions : List RedlineDecision) (out : List (String × String))
    (h : applyDecisions now fileName pkg decisions = .ok out) :
    ∃ r cts, runPipeline now fileName pkg decisions = .ok (r, cts) ∧
      cts.map Prod.fst = (parsedCommentParts pkg).map Prod.fst ∧
      out.length = pkg.length ∧
      ∀ (k : Nat) (it : ZipItem), pkg[k]? = some it →
        (it.name = "word/document.xml" → out[k]? = some (it.name, serializeDoc r)) ∧
        (it.name ≠ "word/document.xml" → alGet cts it.name = none →
          out[k]? = some (it.name, it.bytes)) ∧
        (∀ t, it.name ≠ "word/document.xml" → alGet cts it.name = some t →
          out[k]? = some (it.name, serializeDoc t)) := by
  unfold applyDecisions at h
  rcases heq : runPipeline now fileName pkg decisions with e | res
  · rw [heq] at h; cases h
  · obtain ⟨r0, cts0⟩ := res
    rw [heq] at h
    cases h
    refine ⟨r0, cts0, rfl, runPipeline_cts_names now fileName pkg decisions r0 cts0 heq,
      by simp, ?_⟩
    intro k it hk
    have hout : (pkg.map (fun it =>
        if it.name == "word/document.xml" then (it.name, serializeDoc r0)
        else
          match alGet cts0 it.name with
          | some t => (it.name, serializeDoc t)
          | none => (it.name, it.bytes)))[k]? = some (
        if it.name == "word/document.xml" then (it.name, serializeDoc r0)
        else
          match alGet cts0 it.name with
          | some t => (it.name, serializeDoc t)
          | none => (it.name, it.bytes)) := by
      rw [List.getElem?_map, hk]
      rfl
    refine ⟨?_, ?_, ?_⟩
    · intro hdoc
      rw [hout]
      simp [hdoc]
    · intro hdoc hnone
      rw [hout]
      rw [if_neg (by simpa using hdoc), hnone]
    · intro t hdoc hsome
      rw [hout]
      rw [if_neg (by simpa using hdoc), hsome]

end RedlineEditor

/-- Witness for the amended C2: the frame conclusion at `pkgA` with one
inapplicable decision; the third part (`word/styles.xml`) is copied
byte-for-byte. -/
theorem c2_frame_witness :
    ∃ r cts, RedlineEditor.runPipeline "T" "contract.docx" pkgA
        [{ source_type := "other", source_index := 0, action := "accept" }] = .ok (r, cts) ∧
      cts.map Prod.fst = (RedlineEditor.parsedCommentParts pkgA).map Prod.fst ∧
      ([("word/document.xml", RedlineEditor.serializeDoc docA),
        ("word/comments.xml", RedlineEditor.serializeDoc commentsA),
        ("word/styles.xml", "STYLEBYTES")] : List (String × String)).length = pkgA.length ∧
      ∀ (k : Nat) (it : RedlineEditor.ZipItem), pkgA[k]? = some it →
        (it.name = "word/document.xml" →
          [("word/document.xml", RedlineEditor.serializeDoc docA),
           ("word/comments.xml", RedlineEditor.serializeDoc commentsA),
           ("word/styles.xml", "STYLEBYTES")][k]? = some (it.name, RedlineEditor.serializeDoc r)) ∧
        (it.name ≠ "word/document.xml" → alGet cts it.name = none →
          [("word/document.xml", RedlineEditor.serializeDoc docA),
           ("word/comments.xml", RedlineEditor.serializeDoc commentsA),
           ("word/styles.xml", "STYLEBYTES")][k]? = some (it.name, it.bytes)) ∧
        (∀ t, it.name ≠ "word/document.xml" → alGet cts it.name = some t →
          [("word/document.xml", RedlineEditor.serializeDoc docA),
           ("word/comments.xml", RedlineEditor.serializeDoc commentsA),
           ("word/styles.xml", "STYLEBYTES")][k]? = some (it.name, RedlineEditor.serializeDoc t)) :=
  RedlineEditor.c2_frame "T" "contract.docx" pkgA
    [{ source_type := "other", source_index := 0, action := "accept" }]
    [("word/document.xml", RedlineEditor.serializeDoc docA),
     ("word/comments.xml", RedlineEditor.serializeDoc commentsA),
     ("word/styles.xml", "STYLEBYTES")] rfl

set_option maxRecDepth 4096 in
/-- C2 counterexample: with one inapplicable decision nothing is changed —
the final comment trees are exactly the parsed input trees, so the
comments part received no new entries — yet `word/comments.xml` is
re-serialized rather than copied: its output bytes are the serialization
of its parsed tree, not its original bytes `"COMBYTES"`. -/
theorem c2_counterexample_untouched_part_rewritten :
    RedlineEditor.runPipeline "T" "contract.docx" pkgA
        [{ source_type := "other", source_index := 0, action := "accept" }] =
      .ok (docA, RedlineEditor.parsedCommentParts pkgA) ∧
    (RedlineEditor.applyDecisions "T" "contract.docx" pkgA
        [{ source_type := "other", source_index := 0, action := "accept" }]).toOption.map
      (fun out => alGet out "word/comments.xml") =
      some (some (RedlineEditor.serializeDoc commentsA)) ∧
    (RedlineEditor.zipLookup pkgA "word/comments.xml").map
      RedlineEditor.ZipItem.bytes = some "COMBYTES" ∧
    RedlineEditor.serializeDoc commentsA ≠ "COMBYTES" :=
  ⟨rfl, by decide, by decide, by decide⟩

/-- Document whose only comment-marked paragraph has empty visible text
(its sole content is a tracked deletion), plus a plain paragraph. -/
def docD : Elem :=
  .mk 0 (wTag "document") [] none [
    .mk 1 (wTag "body") [] none [
      .mk 2 (wTag "p") [] none [
        .mk 3 (wTag "commentRangeStart") [(wTag "id", "5")] none [],
        .mk 4 (wTag "del") [] none [
          .mk 5 (wTag "r") [] none [
            .mk 6 (wTag "delText") [] (some "gone") []]],
        .mk 7 (wTag "commentRangeEnd") [(wTag "id", "5")] none []],
      .mk 8 (wTag "p") [] none [
        .mk 9 (wTag "r") [] none [
          .mk 10 (wTag "t") [] (some "hello") []]]]]

/-- A comments part holding an unrelated comment (id 1). -/
def commentsD : Elem :=
  .mk 20 (wTag "comments") [] none [
    .mk 21 (wTag "comment") [(wTag "id", "1")] none [
      .mk 22 (wTag "p") [] none [
        .mk 23 (wTag "r") [] none [
          .mk 24 (wTag "t") [] (some "note") []]]]]

theorem pyStrip_idem (s : String) : pyStrip (pyStrip s) = pyStrip s := by
  have key : ∀ l : List Char,
      List.rdropWhile Char.isWhitespace (List.dropWhile Char.isWhitespace
        (List.rdropWhile Char.isWhitespace (List.dropWhile Char.isWhitespace l))) =
      List.rdropWhile Char.isWhitespace (List.dropWhile Char.isWhitespace l) := by
    intro l
    have hd : List.dropWhile Char.isWhitespace
        (List.rdropWhile Char.isWhitespace (List.dropWhile Char.isWhitespace l)) =
        List.rdropWhile Char.isWhitespace (List.dropWhile Char.isWhitespace l) := by
      rw [List.dropWhile_eq_self_iff]
      intro hl
      obtain ⟨t, ht⟩ := List.rdropWhile_prefix Char.isWhitespace
        (List.dropWhile Char.isWhitespace l)
      have hlen : 0 < (List.dropWhile Char.isWhitespace l).length := by
        rw [← ht, List.length_append]
        exact Nat.lt_of_lt_of_le hl (Nat.le_add_right _ _)
      have h0 : (List.dropWhile Char.isWhitespace l)[0]? =
          (List.rdropWhile Char.isWhitespace (List.dropWhile Char.isWhitespace l))[0]? := by
        conv_lhs => rw [← ht]
        exact List.getElem?_append_left hl
      have hnot := List.dropWhile_get_zero_not Char.isWhitespace l hlen
      have hsome : (List.dropWhile Char.isWhitespace l)[0]? =
          some ((List.dropWhile Char.isWhitespace l).get ⟨0, hlen⟩) := by
        simp [List.getElem?_eq_getElem hlen]
      have hsome' : (List.rdropWhile Char.isWhitespace
            (List.dropWhile Char.isWhitespace l))[0]? =
          some ((List.rdropWhile Char.isWhitespace
            (List.dropWhile Char.isWhitespace l)).get ⟨0, hl⟩) := by
        simp [List.getElem?_eq_getElem hl]
      rw [hsome, hsome'] at h0
      have := Option.some.inj h0
      rw [← this]
      exact hnot
    rw [hd, List.rdropWhile_idempotent]
  exact congrArg String.mk (key s.data)

namespace CorpusParser

theorem annotateCommentsGo_cons (lowered : String) (cursor : Nat) (e : CommentRow)
    (rest : List CommentRow) :
    ∃ e' c', annotateCommentsGo lowered cursor (e :: rest) =
      e' :: annotateCommentsGo lowered c' rest ∧ e'.id = e.id := by
  by_cases h1 : e.position.isSome
  · refine ⟨e, cursor, ?_, rfl⟩
    conv_lhs => rw [annotateCommentsGo]
    rw [if_pos h1]
  · by_cases h2 : pyStrip e.text = ""
    · refine ⟨e, cursor, ?_, rfl⟩
      conv_lhs => rw [annotateCommentsGo]
      rw [if_neg h1]
      try dsimp only []
      rw [if_pos h2]
    · rcases hidx : (match pyFind lowered (strLower (pyStrip e.text)) cursor with
        | some i => some i
        | none => pyFind lowered (strLower (pyStrip e.text)) 0) with _ | i
      · refine ⟨e, cursor, ?_, rfl⟩
        conv_lhs => rw [annotateCommentsGo]
        rw [if_neg h1]
        try dsimp only []
        rw [if_neg h2]
        try dsimp only []
        rw [hidx]
      · refine ⟨{ e with position := some i },
          i + max 1 (strLower (pyStrip e.text)).length, ?_, rfl⟩
        conv_lhs => rw [annotateCommentsGo]
        rw [if_neg h1]
        try dsimp only []
        rw [if_neg h2]
        try dsimp only []
        rw [hidx]

theorem annotateCommentsGo_mem (lowered : String) :
    ∀ (rows : List CommentRow) (cursor : Nat) (r : CommentRow), r ∈ rows →
    ∃ r' ∈ annotateCommentsGo lowered cursor rows, r'.id = r.id := by
  intro rows
  induction rows with
  | nil => intro cursor r hr; cases hr
  | cons e rest ih =>
    intro cursor r hr
    obtain ⟨e', c', heq, hid⟩ := annotateCommentsGo_cons lowered cursor e rest
    rcases List.mem_cons.mp hr with hre | hr'
    · exact ⟨e', by rw [heq]; exact List.mem_cons_self _ _, by rw [hid, hre]⟩
    · obtain ⟨r', hr'', hid'⟩ := ih c' r hr'
      exact ⟨r', by rw [heq]; exact List.mem_cons_of_mem _ hr'', hid'⟩

theorem annotateComments_mem (raw : String) (rows : List CommentRow) (r : CommentRow)
    (hr : r ∈ rows) : ∃ r' ∈ annotateComments raw rows, r'.id = r.id := by
  unfold annotateComments
  split
  · exact ⟨r, hr, rfl⟩
  · exact annotateCommentsGo_mem (strLower raw) rows 0 r hr

theorem annotateEventsGo_cons (lowered : String) (cursor : Nat) (e : EventR)
    (rest : List EventR) :
    ∃ e' c', annotateEventsGo lowered cursor (e :: rest) =
      e' :: annotateEventsGo lowered c' rest ∧ e'.comment_ids = e.comment_ids := by
  by_cases h1 : e.position.isSome
  · refine ⟨e, cursor, ?_, rfl⟩
    conv_lhs => rw [annotateEventsGo]
    rw [if_pos h1]
  · by_cases h2 : pyStrip e.text = ""
    · refine ⟨e, cursor, ?_, rfl⟩
      conv_lhs => rw [annotateEventsGo]
      rw [if_neg h1]
      try dsimp only []
      rw [if_pos h2]
    · rcases hidx : (match pyFind lowered (strLower (pyStrip e.text)) cursor with
        | some i => some i
        | none => pyFind lowered (strLower (pyStrip e.text)) 0) with _ | i
      · refine ⟨e, cursor, ?_, rfl⟩
        conv_lhs => rw [annotateEventsGo]
        rw [if_neg h1]
        try dsimp only []
        rw [if_neg h2]
        try dsimp only []
        rw [hidx]
      · refine ⟨{ e with position := some i },
          i + max 1 (strLower (pyStrip e.text)).length, ?_, rfl⟩
        conv_lhs => rw [annotateEventsGo]
        rw [if_neg h1]
        try dsimp only []
        rw [if_neg h2]
        try dsimp only []
        rw [hidx]

theorem annotateEventsGo_src (lowered : String) :
    ∀ (evs : List EventR) (cursor : Nat) (e' : EventR),
    e' ∈ annotateEventsGo lowered cursor evs →
    ∃ e ∈ evs, e'.comment_ids = e.comment_ids := by
  intro evs
  induction evs with
  | nil =>
    intro cursor e' h
    rw [annotateEventsGo] at h
    cases h
  | cons e rest ih =>
    intro cursor e' h
    obtain ⟨e1, c', heq, hid⟩ := annotateEventsGo_cons lowered cursor e rest
    rw [heq] at h
    rcases List.mem_cons.mp h with hre | hr'
    · exact ⟨e, List.mem_cons_self _ _, by rw [hre, hid]⟩
    · obtain ⟨e0, he0, hid'⟩ := ih c' e' hr'
      exact ⟨e0, List.mem_cons_of_mem _ he0, hid'⟩

theorem annotateEvents_src (raw : String) (evs : List EventR) (e' : EventR)
    (h : e' ∈ annotateEvents raw evs) :
    ∃ e ∈ evs, e'.comment_ids = e.comment_ids := by
  unfold annotateEvents at h
  split at h
  · exact ⟨e', h, rfl⟩
  · exact annotateEventsGo_src (strLower raw) evs 0 e' h

end CorpusParser

namespace CorpusParser

theorem synthInner_mono :
    ∀ (cids : List String) (acc : List String) (x : String), x ∈ acc →
    x ∈ cids.foldl (fun acc cid =>
      let clean := pyStrip cid
      if clean ≠ "" ∧ ¬ acc.contains clean then acc ++ [clean] else acc) acc := by
  intro cids
  induction cids with
  | nil => intro acc x hx; exact hx
  | cons c cs ih =>
    intro acc x hx
    rw [List.foldl_cons]
    apply ih
    dsimp only []
    split
    · exact List.mem_append_left _ hx
    · exact hx

theorem synthInner_cover :
    ∀ (cids : List String) (acc : List String) (cid : String),
    cid ∈ cids → pyStrip cid ≠ "" →
    pyStrip cid ∈ cids.foldl (fun acc cid =>
      let clean := pyStrip cid
      if clean ≠ "" ∧ ¬ acc.contains clean then acc ++ [clean] else acc) acc := by
  intro cids
  induction cids with
  | nil => intro acc cid hc; cases hc
  | cons c cs ih =>
    intro acc cid hc hne
    rw [List.foldl_cons]
    rcases List.mem_cons.mp hc with hce | hc'
    · subst hce
      apply synthInner_mono
      dsimp only []
      split
      · exact List.mem_append_right _ (List.mem_singleton.mpr rfl)
      · rename_i hcond
        have hcont : acc.contains (pyStrip cid) = true := by
          by_contra hnc
          exact hcond ⟨hne, fun hh => hnc hh⟩
        exact List.mem_of_elem_eq_true hcont
    · exact ih _ cid hc' hne

theorem synthOuter_mono (events : List EventR) :
    ∀ (acc : List String) (x : String), x ∈ acc →
    x ∈ events.foldl (fun acc e =>
      e.comment_ids.foldl (fun acc cid =>
        let clean := pyStrip cid
        if clean ≠ "" ∧ ¬ acc.contains clean then acc ++ [clean] else acc) acc) acc := by
  induction events with
  | nil => intro acc x hx; exact hx
  | cons e es ih =>
    intro acc x hx
    rw [List.foldl_cons]
    exact ih _ x (synthInner_mono e.comment_ids acc x hx)

theorem synthOuter_cover (events : List EventR) :
    ∀ (acc : List String) (e : EventR), e ∈ events →
    ∀ cid ∈ e.comment_ids, pyStrip cid ≠ "" →
    pyStrip cid ∈ events.foldl (fun acc e =>
      e.comment_ids.foldl (fun acc cid =>
        let clean := pyStrip cid
        if clean ≠ "" ∧ ¬ acc.contains clean then acc ++ [clean] else acc) acc) acc := by
  induction events with
  | nil => intro acc e he; cases he
  | cons e0 es ih =>
    intro acc e he cid hcid hne
    rw [List.foldl_cons]
    rcases List.mem_cons.mp he with hee | he'
    · subst hee
      exact synthOuter_mono es _ _ (synthInner_cover e.comment_ids acc cid hcid hne)
    · exact ih _ e he' cid hcid hne

theorem syntheticCommentRows_covers (events : List EventR) (e : EventR) (he : e ∈ events)
    (cid : String) (hcid : cid ∈ e.comment_ids) (hne : pyStrip cid ≠ "") :
    ∃ r ∈ syntheticCommentRows events, r.id = some (pyStrip cid) := by
  unfold syntheticCommentRows
  have hmem := synthOuter_cover events [] e he cid hcid hne
  exact ⟨_, List.mem_map_of_mem _ hmem, rfl⟩

/-- One step of the anchor-synthesis fold, with the pre-pass `existing`
list abstracted (in the source it is computed once from the initial
rows). -/
def anchorSynStep (existing : List String)
    (acc : List CommentRow × List (String × String)) (kv : String × Anchor) :
    List CommentRow × List (String × String) :=
  let (rows, byId) := acc
  let clean := pyStrip kv.1
  if clean = "" then (rows, byId)
  else
    let byId' :=
      if optFalsy (alGet byId clean)
      then alSet byId clean ("Comment attached in document (id: " ++ clean ++ ")")
      else byId
    if existing.contains clean then (rows, byId')
    else
      (rows ++ [{ id := some clean, author := none, timestamp := none
                  text := (alGet byId' clean).getD ""
                  source := "comments_anchor"
                  anchor_text := some kv.2.anchor_text
                  position := some kv.2.position }], byId')

theorem anchorSynthetics_eq (anchors : List (String × Anchor))
    (rows0 : List CommentRow) (byId0 : List (String × String)) :
    anchorSynthetics anchors rows0 byId0 =
      anchors.foldl (anchorSynStep (rows0.filterMap (fun r =>
        r.id.bind (fun i => if pyStrip i ≠ "" then some (pyStrip i) else none))))
        (rows0, byId0) := rfl

theorem anchorSynStep_mono (existing : List String)
    (acc : List CommentRow × List (String × String)) (kv : String × Anchor)
    (r : CommentRow) (hr : r ∈ acc.1) : r ∈ (anchorSynStep existing acc kv).1 := by
  obtain ⟨rows, byId⟩ := acc
  dsimp only [anchorSynStep]
  split
  · exact hr
  · split
    · exact hr
    · exact List.mem_append_left _ hr

theorem anchorSynFold_mono (existing : List String) :
    ∀ (anchors : List (String × Anchor)) (acc : List CommentRow × List (String × String))
      (r : CommentRow), r ∈ acc.1 →
    r ∈ (anchors.foldl (anchorSynStep existing) acc).1 := by
  intro anchors
  induction anchors with
  | nil => intro acc r hr; exact hr
  | cons a l ih =>
    intro acc r hr
    rw [List.foldl_cons]
    exact ih _ r (anchorSynStep_mono existing acc a r hr)

theorem anchorSynStep_cases (existing : List String)
    (acc : List CommentRow × List (String × String)) (kv : String × Anchor)
    (hne : pyStrip kv.1 ≠ "") :
    (pyStrip kv.1 ∈ existing ∧ (anchorSynStep existing acc kv).1 = acc.1) ∨
    (∃ row, (anchorSynStep existing acc kv).1 = acc.1 ++ [row] ∧
      row.id = some (pyStrip kv.1)) := by
  obtain ⟨rows, byId⟩ := acc
  dsimp only [anchorSynStep]
  rw [if_neg hne]
  by_cases hcont : existing.contains (pyStrip kv.1)
  · left
    refine ⟨List.mem_of_elem_eq_true hcont, ?_⟩
    rw [if_pos hcont]
  · right
    rw [if_neg hcont]
    exact ⟨_, rfl, rfl⟩

theorem anchorSyn_aux (existing : List String) :
    ∀ (anchors : List (String × Anchor)) (acc : List CommentRow × List (String × String)),
    (∀ c ∈ existing, ∃ r ∈ acc.1, ∃ i, r.id = some i ∧ pyStrip i = c) →
    ∀ kv ∈ anchors, pyStrip kv.1 ≠ "" →
    ∃ r ∈ (anchors.foldl (anchorSynStep existing) acc).1,
      ∃ i, r.id = some i ∧ pyStrip i = pyStrip kv.1 := by
  intro anchors
  induction anchors with
  | nil => intro acc hex kv hkv; cases hkv
  | cons a l ih =>
    intro acc hex kv hkv hne
    rw [List.foldl_cons]
    rcases List.mem_cons.mp hkv with hka | hk'
    · subst hka
      rcases anchorSynStep_cases existing acc kv hne with ⟨hmem, heq⟩ | ⟨row, heq, hid⟩
      · obtain ⟨r, hr, i, hi, hstr⟩ := hex (pyStrip kv.1) hmem
        exact ⟨r, anchorSynFold_mono existing l _ r (by rw [heq]; exact hr), i, hi, hstr⟩
      · refine ⟨row, anchorSynFold_mono existing l _ row
          (by rw [heq]; exact List.mem_append_right _ (List.mem_singleton.mpr rfl)), ?_⟩
        exact ⟨pyStrip kv.1, hid, pyStrip_idem kv.1⟩
    · refine ih (anchorSynStep existing acc a) ?_ kv hk' hne
      intro c hc
      obtain ⟨r, hr, i, hi, hstr⟩ := hex c hc
      exact ⟨r, anchorSynStep_mono existing acc a r hr, i, hi, hstr⟩

theorem anchorSynthetics_covers (anchors : List (String × Anchor))
    (rows0 : List CommentRow) (byId0 : List (String × String)) :
    ∀ kv ∈ anchors, pyStrip kv.1 ≠ "" →
    ∃ r ∈ (anchorSynthetics anchors rows0 byId0).1,
      ∃ i, r.id = some i ∧ pyStrip i = pyStrip kv.1 := by
  intro kv hkv hne
  rw [anchorSynthetics_eq]
  refine anchorSyn_aux _ anchors (rows0, byId0) ?_ kv hkv hne
  intro c hc
  rw [List.mem_filterMap] at hc
  obtain ⟨r, hr, hfr⟩ := hc
  rcases hid : r.id with _ | i
  · rw [hid] at hfr
    cases hfr
  · rw [hid] at hfr
    rw [Option.some_bind] at hfr
    by_cases hpi : pyStrip i ≠ ""
    · rw [if_pos hpi] at hfr
      exact ⟨r, hr, i, hid, Option.some.inj hfr⟩
    · rw [if_neg hpi] at hfr
      cases hfr

end CorpusParser

namespace CorpusParser

/-- The people map used by `_parse_docx` (empty when `word/people.xml` is
absent or unparseable). -/
def peopleMapOf : Option Elem → List (String × String)
  | some pr => parsePeopleXml pr
  | none => []

/-- The post-synthesis comment state (`comments`, `comments_by_id`) of
`_parse_docx`, before the no-comments fallback. -/
def s2Of (root : Elem) (cps : List (Option Elem)) (people : Option Elem) :
    List CommentRow × List (String × String) :=
  anchorSynthetics (commentAnchors (paragraphRows root))
    (commentsFromParts (commentAnchors (paragraphRows root)) (peopleMapOf people)
      cps ([], [])).1
    (commentsFromParts (commentAnchors (paragraphRows root)) (peopleMapOf people)
      cps ([], [])).2

/-- The flattened `raw_text` of `_parse_docx`. -/
def rawOf (root : Elem) : String :=
  pyStrip ("\n\n".intercalate ((paragraphRows root).map (·.text)))

/-- The event list of `_parse_docx` before position annotation (tracked
events, or the comment-range fallback when there are none). -/
def events1Of (root : Elem) (cps : List (Option Elem)) (people : Option Elem) :
    List EventR :=
  if redlineEventsRaw (s2Of root cps people).2 (collectActiveCommentIdsByElement root)
        root = [] ∧
      collectCommentRangeTexts root ≠ [] then
    rangeFallbackEvents (s2Of root cps people).2 (collectCommentRangeTexts root)
  else redlineEventsRaw (s2Of root cps people).2 (collectActiveCommentIdsByElement root) root

theorem parseDocx_comments_eq (root : Elem) (cps : List (Option Elem))
    (people : Option Elem) :
    (parseDocxFromTrees root cps people).comments =
      annotateComments (rawOf root)
        (if (s2Of root cps people).1 = [] then
          syntheticCommentRows (events1Of root cps people)
        else (s2Of root cps people).1) := rfl

theorem parseDocx_events_eq (root : Elem) (cps : List (Option Elem))
    (people : Option Elem) :
    (parseDocxFromTrees root cps people).redline_events =
      annotateEvents (rawOf root) (events1Of root cps people) := rfl

/-- C8 (amended): (i) every comment id anchored on a NONEMPTY-text
paragraph has a corresponding entity in the returned comments list
(matched on stripped id) — when no part row carries it, the
anchor-synthesis pass creates a placeholder; (ii) when the pre-fallback
comments list is empty, every id referenced by any returned redline event
gets a placeholder comment entity.  (Ids anchored only on empty-text
paragraphs can escape both passes — see the counterexample.) -/
theorem c8_referential_integrity (root : Elem) (cps : List (Option Elem))
    (people : Option Elem) :
    (∀ kv ∈ commentAnchors (paragraphRows root), pyStrip kv.1 ≠ "" →
      ∃ r ∈ (parseDocxFromTrees root cps people).comments,
        ∃ i, r.id = some i ∧ pyStrip i = pyStrip kv.1) ∧
    ((s2Of root cps people).1 = [] →
      ∀ e ∈ (parseDocxFromTrees root cps people).redline_events,
        ∀ cid ∈ e.comment_ids, pyStrip cid ≠ "" →
          ∃ r ∈ (parseDocxFromTrees root cps people).comments,
            r.id = some (pyStrip cid)) := by
  constructor
  · intro kv hkv hne
    obtain ⟨r, hr, i, hid, hstr⟩ :=
      anchorSynthetics_covers (commentAnchors (paragraphRows root))
        (commentsFromParts (commentAnchors (paragraphRows root)) (peopleMapOf people)
          cps ([], [])).1
        (commentsFromParts (commentAnchors (paragraphRows root)) (peopleMapOf people)
          cps ([], [])).2 kv hkv hne
    have hr' : r ∈ (s2Of root cps people).1 := hr
    have hnil : ¬ (s2Of root cps people).1 = [] := by
      intro hx
      rw [hx] at hr'
      cases hr'
    rw [parseDocx_comments_eq, if_neg hnil]
    obtain ⟨r', hrr, hid'⟩ := annotateComments_mem (rawOf root) _ r hr'
    exact ⟨r', hrr, i, by rw [hid', hid], hstr⟩
  · intro hs e he cid hcid hne
    rw [parseDocx_events_eq] at he
    obtain ⟨e0, he0, hids⟩ := annotateEvents_src (rawOf root) _ e he
    rw [hids] at hcid
    obtain ⟨r, hr, hid⟩ :=
      syntheticCommentRows_covers (events1Of root cps people) e0 he0 cid hcid hne
    rw [parseDocx_comments_eq, if_pos hs]
    obtain ⟨r', hrr, hid'⟩ := annotateComments_mem (rawOf root) _ r hr
    exact ⟨r', hrr, by rw [hid', hid]⟩

end CorpusParser

/-- The anchor `docA`'s comment id 1 receives in the anchor pass. -/
def kvA : String × CorpusParser.Anchor := ("1", ⟨"45 days", 0⟩)

/-- Witness for the amended C8: part (i) at `docA` (its anchored id 1 has
an entity), part (ii) at `docD` with no comment parts (the event-referenced
id 5 gets a placeholder entity). -/
theorem c8_referential_integrity_witness :
    ((kvA ∈ CorpusParser.commentAnchors (CorpusParser.paragraphRows docA) ∧
        pyStrip kvA.1 ≠ "") ∧
      (∃ r ∈ (CorpusParser.parseDocxFromTrees docA [some commentsA] none).comments,
        ∃ i, r.id = some i ∧ pyStrip i = pyStrip kvA.1)) ∧
    ((CorpusParser.s2Of docD [] none).1 = [] ∧
      ∀ e ∈ (CorpusParser.parseDocxFromTrees docD [] none).redline_events,
        ∀ cid ∈ e.comment_ids, pyStrip cid ≠ "" →
          ∃ r ∈ (CorpusParser.parseDocxFromTrees docD [] none).comments,
            r.id = some (pyStrip cid)) :=
  ⟨⟨⟨by decide, by decide⟩,
    (CorpusParser.c8_referential_integrity docA [some commentsA] none).1 kvA
      (by decide) (by decide)⟩,
   ⟨by decide,
    (CorpusParser.c8_referential_integrity docD [] none).2 (by decide)⟩⟩

/-- C8 counterexample: in `docD` the only comment-marked paragraph has
empty visible text (all its content is a tracked deletion), so id 5 never
becomes an anchor; the comments part contributes a row for id 1, so the
no-comments fallback does not run either.  The returned deletion event
references comment id 5, but no entity in the returned comments list
carries that id. -/
theorem c8_counterexample_unanchored_reference :
    (CorpusParser.parseDocxFromTrees docD [some commentsD] none).redline_events.map
        (fun e => (e.type, e.comment_ids)) = [("deletion", ["5"])] ∧
    (CorpusParser.parseDocxFromTrees docD [some commentsD] none).comments.map
        (fun r => r.id) = [some "1"] := by decide
